import Mathlib

/-!
Verification of the workflow-builder backend (Python sources under
`backend/app/`) against its natural-language specification.

The Python data and operations are shallowly embedded:

* JSON/Python values (`dict` / `list` / `str` / `int` / `bool` / `None`)
  become the inductive type `Val`;
* the interpolator `DynamicWorkflow._interpolate_config` /
  `_get_value_from_state` (temporal_workflows/dynamic_workflow.py) becomes
  `interpolate_config` / `get_value_from_state`;
* `utils/validation.py` becomes `validate_workflow_graph` / `has_cycle`;
* `temporal_workflows/activities.py::execute_action` becomes `execute_action`;
* `services/temporal_service.py::get_workflow_status` / `cancel_workflow`
  and `api/endpoints/executions.py::cancel_execution` become the
  correspondingly named functions;
* `DynamicWorkflow.run` and `_get_execution_order` become
  `DynamicWorkflow_run` and `get_execution_order`.

External effects (the HTTP action service, the durable runtime, the
database session, wall-clock time) are passed in explicitly as oracles /
parameters; everything else follows the Python control flow line by line.
-/

/-- Embedded Python/JSON value, as produced by the workflow configuration
and by the action service.  `vnone` is Python `None`. -/
inductive Val where
  | vnone : Val
  | vbool (b : Bool) : Val
  | vint (n : Int) : Val
  | vstr (s : String) : Val
  | vlist (xs : List Val) : Val
  | vdict (kvs : List (String × Val)) : Val

/-- Assoc-list lookup modelling Python `dict.get(k)` on a dict whose
insertion order is the list order (first binding wins; Python dicts have
unique keys, so on faithfully built dicts this is exact). -/
def dictGet (kvs : List (String × Val)) (k : String) : Option Val :=
  match kvs with
  | [] => none
  | (k', v) :: rest => if k' = k then some v else dictGet rest k

/-- Python `d[k] = v` on a dict represented as an insertion-ordered assoc
list: overwrite in place if the key exists, else append at the end. -/
def dictSet (kvs : List (String × Val)) (k : String) (v : Val) : List (String × Val) :=
  match kvs with
  | [] => [(k, v)]
  | (k', v') :: rest =>
      if k' = k then (k, v) :: rest else (k', v') :: dictSet rest k v

mutual

/-- Python `repr()` of an embedded value.  Scalars follow CPython exactly
(`repr(None) = "None"`, `repr(True) = "True"`, integers in decimal);
containers render the same bracketed shape (string escaping subtleties of
`repr` are not needed by any claim). -/
def pyRepr : Val → String
  | .vnone => "None"
  | .vbool b => if b then "True" else "False"
  | .vint n => toString n
  | .vstr s => "'" ++ s ++ "'"
  | .vlist xs => "[" ++ String.intercalate ", " (pyReprList xs) ++ "]"
  | .vdict kvs => "\x7b" ++ String.intercalate ", " (pyReprKVs kvs) ++ "\x7d"

/-- `repr` of each element of a Python list. -/
def pyReprList : List Val → List String
  | [] => []
  | v :: vs => pyRepr v :: pyReprList vs

/-- `"key-repr: value-repr"` for each entry of a Python dict. -/
def pyReprKVs : List (String × Val) → List String
  | [] => []
  | (k, v) :: rest => ("'" ++ k ++ "': " ++ pyRepr v) :: pyReprKVs rest

end

/-- Python `str(value)`: identity on strings, `repr` otherwise. -/
def pyStr : Val → String
  | .vstr s => s
  | v => pyRepr v

/-- Python `str.strip()` (ASCII whitespace suffices for the claims). -/
def pyStrip (s : String) : String :=
  let ws : Char → Bool := fun c => c == ' ' || c == '\t' || c == '\n' || c == '\r'
  String.mk (((s.data.dropWhile ws).reverse.dropWhile ws).reverse)

/-- Python `path.split(".")` over the character list: split at every
`'.'`, keeping empty groups (`"".split(".") = [""]`,
`"a..b".split(".") = ["a", "", "b"]`). -/
def splitDots : List Char → List (List Char)
  | [] => [[]]
  | '.' :: rest => [] :: splitDots rest
  | c :: rest =>
      match splitDots rest with
      | [] => [[c]]
      | g :: gs => (c :: g) :: gs

/-- The walk `for part in parts` of `_get_value_from_state`: a step on a
non-dict value returns `None`, and a missing key yields `None` (which then
falls into the non-dict case on the next step). -/
def walkState : List String → Val → Val
  | [], v => v
  | p :: ps, .vdict kvs => walkState ps ((dictGet kvs p).getD .vnone)
  | _ :: _, _ => .vnone

/-- `DynamicWorkflow._get_value_from_state` (dynamic_workflow.py:216-236):
split the path on `"."` and walk the state. -/
def get_value_from_state (path : String) (state : Val) : Val :=
  walkState ((splitDots path.data).map String.mk) state

/-- Spec-side notion of a dot-path resolving in the state: the walk
succeeds with every intermediate value a dict containing the key.
Used to state what "the path does not resolve" means in claim C9. -/
def resolvePath (parts : List String) (state : Val) : Option Val :=
  match parts, state with
  | [], v => some v
  | p :: ps, .vdict kvs =>
      match dictGet kvs p with
      | some v => resolvePath ps v
      | none => none
  | _ :: _, _ => none

/-- Does `pat` occur at the head of `s` (both as char lists)? -/
def startsWithChars (s pat : List Char) : Bool :=
  match s, pat with
  | _, [] => true
  | [], _ :: _ => false
  | c :: cs, p :: ps => c == p && startsWithChars cs ps

/-- All captures of the regex `\x7b\x7b([^\x7d]+)\x7d\x7d` over `s`, in
order, continuing after each match — `re.findall` in
`_interpolate_config` (dynamic_workflow.py:196-197).  The capture is the
maximal nonempty run of non-`'\x7d'` characters after `"\x7b\x7b"`, and the
match succeeds only when it is followed by `"\x7d\x7d"`; on failure the
scanner advances one character, exactly like the regex engine. -/
def scanGo : Nat → List Char → List (List Char)
  | 0, _ => []
  | fuel + 1, l =>
      match l with
      | [] => []
      | '{' :: '{' :: rest =>
          match rest.dropWhile (fun c => c ≠ '}') with
          | '}' :: '}' :: after =>
              if rest.takeWhile (fun c => c ≠ '}') ≠ [] then
                rest.takeWhile (fun c => c ≠ '}') :: scanGo fuel after
              else
                scanGo fuel ('{' :: rest)
          | _ => scanGo fuel ('{' :: rest)
      | _ :: rest => scanGo fuel rest

/-- Entry point for the scanner: every recursive call of `scanGo` strictly
shortens the input, so `length + 1` fuel never runs out. -/
def scanMatches (l : List Char) : List (List Char) := scanGo (l.length + 1) l

/-- Python `s.replace(pat, rep)`: replace every non-overlapping occurrence
of `pat`, scanning left to right; replaced text is not rescanned.  `pat`
is never empty at the call sites (it is `"\x7b\x7b" ++ m ++ "\x7d\x7d"`);
for totality an empty pattern leaves the string unchanged. -/
def replaceGo (pat rep : List Char) : Nat → List Char → List Char
  | 0, s => s
  | fuel + 1, s =>
      match s with
      | [] => []
      | c :: cs =>
          if pat ≠ [] ∧ startsWithChars (c :: cs) pat then
            rep ++ replaceGo pat rep fuel ((c :: cs).drop pat.length)
          else
            c :: replaceGo pat rep fuel cs

/-- Entry point for replacement: every recursive call of `replaceGo`
strictly shortens the input (the pattern is nonempty in the match branch),
so `length + 1` fuel never runs out. -/
def replaceAll (s pat rep : List Char) : List Char := replaceGo pat rep (s.length + 1) s

/-- The string case of `DynamicWorkflow._interpolate_config`
(dynamic_workflow.py:194-205): find all placeholder captures, then for
each capture `m` replace every occurrence of `"\x7b\x7b" ++ m ++ "\x7d\x7d"`
with `str(_get_value_from_state(m.strip(), state))`. -/
def interpolateString (s : String) (state : Val) : String :=
  String.mk <|
    (scanMatches s.data).foldl
      (fun acc m =>
        let value := get_value_from_state (pyStrip (String.mk m)) state
        replaceAll acc ('{' :: '{' :: m ++ ['}', '}']) (pyStr value).data)
      s.data

mutual

/-- `DynamicWorkflow._interpolate_config` (dynamic_workflow.py:183-214):
strings are interpolated, dicts recurse on values, lists element-wise,
every other value is returned unchanged. -/
def interpolate_config (state : Val) : Val → Val
  | .vstr s => .vstr (interpolateString s state)
  | .vdict kvs => .vdict (interpolateKVs state kvs)
  | .vlist xs => .vlist (interpolateList state xs)
  | .vnone => .vnone
  | .vbool b => .vbool b
  | .vint n => .vint n

/-- Element-wise interpolation of a Python list. -/
def interpolateList (state : Val) : List Val → List Val
  | [] => []
  | v :: vs => interpolate_config state v :: interpolateList state vs

/-- Value-wise interpolation of a Python dict (keys untouched). -/
def interpolateKVs (state : Val) : List (String × Val) → List (String × Val)
  | [] => []
  | (k, v) :: rest => (k, interpolate_config state v) :: interpolateKVs state rest

end

/-- A workflow node as the executor and validator see it: `node["id"]`,
`node.get("type", "action")` (where `type? = none` models an absent
`"type"` key), and `node["data"]` (an arbitrary dict). -/
structure Node where
  id : String
  type? : Option String
  data : Val

/-- A workflow edge; only `edge["source"]` and `edge["target"]` are read
by the validator and the executor. -/
structure EdgeRec where
  source : String
  target : String

/-- First-occurrence deduplication: the iteration order of the Python set
`\x7bnode["id"] for node in nodes\x7d` is unspecified, so we fix first
occurrence; every property proved about it only uses membership, which is
order-independent. -/
def dedupFirst : List String → List String
  | [] => []
  | x :: xs => x :: (dedupFirst xs).filter (fun y => y ≠ x)

/-- The recursive closure `dfs` of `_has_cycle` (validation.py:87-99):
mark the node visited, push it on the recursion stack, and scan its
neighbours, recursing on unvisited ones (a `True` verdict propagates
immediately — the fold then just carries it) and reporting a cycle when a
neighbour is on the recursion stack.  Returns the verdict together with
the updated visited set; the stack is passed down (popping on return is
implicit: the caller keeps its own stack).  `fuel` bounds the recursion
depth; every nested call is on a freshly visited node, so depth never
exceeds the number of distinct vertices and the fuel chosen by
`has_cycle` is never exhausted. -/
def dfsCycle (adj : String → List String) : Nat → List String → List String → String →
    Bool × List String
  | 0, visited, _, _ => (false, visited)
  | fuel + 1, visited, stack, n =>
      (adj n).foldl
        (fun acc t =>
          match acc with
          | (true, vis) => (true, vis)
          | (false, vis) =>
              if t ∈ vis then
                if t ∈ n :: stack then (true, vis) else (false, vis)
              else dfsCycle adj fuel vis (n :: stack) t)
        (false, n :: visited)

/-- `_has_cycle` (validation.py:64-107): DFS over the id set with a
shared visited set and a per-path recursion stack. -/
def has_cycle (nodes : List Node) (edges : List EdgeRec) : Bool :=
  let ids := dedupFirst (nodes.map (·.id))
  let adj := fun u =>
    if ids.contains u then (edges.filter (fun e => e.source == u)).map (·.target) else []
  let fuel := nodes.length + edges.length + 1
  (ids.foldl
    (fun (acc : Bool × List String) n =>
      match acc with
      | (true, vis) => (true, vis)
      | (false, vis) =>
          if n ∈ vis then (false, vis) else dfsCycle adj fuel vis [] n)
    (false, [])).1

/-- The per-edge endpoint checks of `validate_workflow_graph`
(validation.py:28-32), accumulating error strings in edge order. -/
def edgeErrors (ids : List String) (edges : List EdgeRec) : List String :=
  edges.foldl
    (fun acc e =>
      let acc :=
        if e.source ∈ ids then acc
        else acc ++ ["Edge source '" ++ e.source ++ "' references non-existent node"]
      if e.target ∈ ids then acc
      else acc ++ ["Edge target '" ++ e.target ++ "' references non-existent node"])
    []

/-- `validate_workflow_graph` (validation.py:7-61).  Note that the source
takes only `(nodes, edges)`: it consults no action catalog, and of each
node it reads only `node["id"]`. -/
def validate_workflow_graph (nodes : List Node) (edges : List EdgeRec) : Bool × List String :=
  if nodes.isEmpty then (false, ["Workflow must have at least one node"])
  else
    let ids := nodes.map (·.id)
    let errs1 := edgeErrors ids edges
    let errs2 :=
      if has_cycle nodes edges then errs1 ++ ["Workflow contains cycles, which are not allowed"]
      else errs1
    let startExists := ids.any (fun n => (edges.filter (fun e => e.target == n)).isEmpty)
    let errs3 :=
      if startExists then errs2
      else errs2 ++ ["Workflow must have at least one start node (node with no incoming edges)"]
    let endExists := ids.any (fun n => (edges.filter (fun e => e.source == n)).isEmpty)
    let errs4 :=
      if endExists then errs3
      else errs3 ++ ["Workflow must have at least one end node (node with no outgoing edges)"]
    (errs4.isEmpty, errs4)

/-- The local `Execution` row fields touched by reconciliation and
cancellation (models/execution.py): `status` and `completed_at`
(timestamps as abstract naturals). -/
structure ExecRecord where
  status : String
  completed_at : Option Nat

/-- The terminal statuses listed at temporal_service.py:151. -/
def terminalStatuses : List String := ["COMPLETED", "FAILED", "CANCELLED"]

/-- `TemporalService.get_workflow_status` (temporal_service.py:117-157),
restricted to a found execution.  `described` is `str(description.status)`
from the runtime, or `none` when `handle.describe()` raised (the
`except Exception` branch returns the stored status and leaves the row
unchanged).  Returns (returned status string, updated local row). -/
def get_workflow_status (rec : ExecRecord) (described : Option String) (now : Nat) :
    String × ExecRecord :=
  match described with
  | none => (rec.status, rec)
  | some ts =>
      if ts ≠ rec.status then
        (ts,
         { status := ts
           completed_at := if ts ∈ terminalStatuses then some now else rec.completed_at })
      else (ts, rec)

/-- `TemporalService.cancel_workflow` (temporal_service.py:84-115),
restricted to a found execution.  `cancelErr = some msg` models
`handle.cancel()` raising; the local mutation (status, `completed_at`)
happens only after a successful cancel signal. -/
def cancel_workflow (cancelErr : Option String) (now : Nat) : Except String ExecRecord :=
  match cancelErr with
  | some msg => .error msg
  | none => .ok { status := "CANCELLED", completed_at := some now }

/-- `cancel_execution` (api/endpoints/executions.py:135-167): 404 when the
row is missing, 400 naming the observed status unless it is RUNNING,
otherwise delegate to `cancel_workflow`, converting an exception into a
500 with the row untouched.  Returns ((http status, detail/body), final
local row). -/
def cancel_execution (rec? : Option ExecRecord) (cancelErr : Option String) (now : Nat) :
    (Nat × String) × Option ExecRecord :=
  match rec? with
  | none => ((404, "Execution not found"), none)
  | some rec =>
      if rec.status ≠ "RUNNING" then
        ((400, "Cannot cancel execution with status " ++ rec.status), some rec)
      else
        match cancel_workflow cancelErr now with
        | .ok rec' => ((200, "CANCELLED"), some rec')
        | .error msg => ((500, "Failed to cancel execution: " ++ msg), some rec)

/-- Outcome of one HTTP attempt inside `execute_action`
(activities.py:54-90): a 2xx response with parsed JSON body, an
`httpx.HTTPStatusError` carrying the response status code, or any other
exception (transport errors, JSON decoding, ...). -/
inductive AttemptOutcome where
  | success (data : Val)
  | httpStatusError (code : Nat) (msg : String)
  | otherError (msg : String)

/-- The dict returned by `execute_action`: either
`\x7bstatus: "SUCCESS", data, action_name\x7d` or
`\x7bstatus: "FAILED", error, action_name\x7d`. -/
structure ActionResult where
  status : String
  data : Option Val
  error : Option String
  action_name : String

/-- `max_retries` (activities.py:50). -/
def maxRetries : Nat := 3

/-- The attempt loop of `execute_action` (activities.py:54-99).  `oracle k`
is the outcome of HTTP attempt `k` (0-based).  On `HTTPStatusError` the
loop continues only for a 5xx code with attempts remaining; on any other
exception it continues whenever attempts remain; otherwise it breaks and
falls through to the FAILED return carrying `str(last_error)`.  Also
returns the number of attempts made. -/
def execLoop (oracle : Nat → AttemptOutcome) (name : String) : Nat → Nat → ActionResult × Nat
  | 0, attempt =>
      ({ status := "FAILED", data := none, error := none, action_name := name }, attempt)
  | fuel + 1, attempt =>
      match oracle attempt with
      | .success v =>
          ({ status := "SUCCESS", data := some v, error := none, action_name := name },
           attempt + 1)
      | .httpStatusError code msg =>
          if 500 ≤ code ∧ attempt < maxRetries - 1 then execLoop oracle name fuel (attempt + 1)
          else ({ status := "FAILED", data := none, error := some msg, action_name := name },
                attempt + 1)
      | .otherError msg =>
          if attempt < maxRetries - 1 then execLoop oracle name fuel (attempt + 1)
          else ({ status := "FAILED", data := none, error := some msg, action_name := name },
                attempt + 1)

/-- `execute_action` (activities.py:12-99): run the attempt loop from
attempt 0; failures are returned as values, never raised.  The loop is
structurally recursive on a fuel started at `maxRetries`; a retry
requires `attempt < maxRetries - 1`, so the fuel-exhausted branch is
unreachable. -/
def execute_action (name : String) (oracle : Nat → AttemptOutcome) : ActionResult × Nat :=
  execLoop oracle name maxRetries 0

/-- Is this attempt outcome one the loop retries after (HTTP 5xx or any
non-HTTPStatusError exception)? -/
def retryableOutcome : AttemptOutcome → Bool
  | .success _ => false
  | .httpStatusError code _ => decide (500 ≤ code)
  | .otherError _ => true

/-- The error message `str(last_error)` an outcome would contribute. -/
def outcomeMsg : AttemptOutcome → Option String
  | .success _ => none
  | .httpStatusError _ m => some m
  | .otherError m => some m

/-- The workflow row persisted by `create_workflow`
(api/endpoints/workflows.py:59-82). -/
structure WorkflowRow where
  name : String
  description : Option String
  version : Nat
  nodes : List Node
  edges : List EdgeRec
  created_by : String

/-- `create_workflow` (api/endpoints/workflows.py:59-82): the handler
performs no graph validation (the `TODO` at line 67) — it unconditionally
persists the workflow at version 1 and answers 201.  Returns
(http status, persisted row). -/
def create_workflow (name : String) (description : Option String)
    (nodes : List Node) (edges : List EdgeRec) (user : String) : Nat × Option WorkflowRow :=
  (201,
   some { name := name, description := description, version := 1,
          nodes := nodes, edges := edges, created_by := user })

/-- The adjacency list built by `_get_execution_order`
(dynamic_workflow.py:148-157): for a key `u` of the node dict, the targets
of the edges with source `u`, in edge order, subject to the guard
`source in adjacency and target in in_degree` (both endpoints are keys). -/
def adjacencyK (ids : List String) (edges : List EdgeRec) (u : String) : List String :=
  (edges.filter (fun e => e.source == u && ids.contains e.source && ids.contains e.target)).map
    (·.target)

/-- The in-degree table built by `_get_execution_order`: number of guarded
edges into `t`.  Kept as `Int` because the Python decrements below zero on
repeated processing. -/
def initIndeg (ids : List String) (edges : List EdgeRec) (t : String) : Int :=
  (((edges.filter (fun e => e.target == t && ids.contains e.source && ids.contains e.target)).length :
      Nat) : Int)

/-- The `for neighbor in adjacency[node_id]` body of the Kahn loop
(dynamic_workflow.py:167-171): decrement each neighbour's in-degree,
enqueueing it the moment the count reaches exactly zero. -/
def processNeighbors (deg : String → Int) (q : List String) (neigh : List String) :
    (String → Int) × List String :=
  neigh.foldl
    (fun (st : (String → Int) × List String) t =>
      let deg' := fun x => if x = t then st.1 x - 1 else st.1 x
      (deg', if deg' t = 0 then st.2 ++ [t] else st.2))
    (deg, q)

/-- The `while queue` loop of `_get_execution_order`
(dynamic_workflow.py:163-171): pop the queue head, append it to the order,
process its neighbours.  The loop is driven by fuel; `get_execution_order`
supplies fuel equal to the loop variant `|queue| + Σ max(in_degree, 0)`,
which strictly decreases every iteration, so the fuel-exhausted branch is
never taken and the function agrees with the unbounded `while`. -/
def kahnLoop (adj : String → List String) :
    Nat → (String → Int) → List String → List String → List String
  | 0, _, _, order => order
  | _ + 1, _, [], order => order
  | fuel + 1, deg, n :: rest, order =>
      let st := processNeighbors deg rest (adj n)
      kahnLoop adj fuel st.1 st.2 (order ++ [n])

/-- The loop variant used as fuel for `kahnLoop`. -/
def kahnMeasure (ids : List String) (deg : String → Int) (q : List String) : Nat :=
  q.length + (ids.map (fun x => (deg x).toNat)).sum

/-- `DynamicWorkflow._get_execution_order` (dynamic_workflow.py:133-181):
Kahn's algorithm with a FIFO queue seeded with the zero-in-degree keys in
insertion order; any nodes missing from the order afterwards (cycles)
are appended in insertion order.  `ids` is the key list of the node dict
(unique, in first-insertion order). -/
def get_execution_order (ids : List String) (edges : List EdgeRec) : List String :=
  let adj := adjacencyK ids edges
  let deg := initIndeg ids edges
  let q0 := ids.filter (fun n => deg n == 0)
  let order := kahnLoop adj (kahnMeasure ids deg q0) deg q0 []
  order ++ ids.filter (fun n => !(order.contains n))

/-- Modelled from the spec's words for the tie-break sentence of claim C8
("Tie-breaking among ready nodes is insertion order of `nodes`"): the
first node in insertion order that is unexecuted and has every guarded
predecessor already executed. -/
def specReady (ids : List String) (edges : List EdgeRec) (chosen : List String) :
    Option String :=
  ids.find? (fun n =>
    !(chosen.contains n) &&
      (edges.filter (fun e => e.target == n && ids.contains e.source && ids.contains e.target)).all
        (fun e => chosen.contains e.source))

/-- Modelled from the spec's words (see `specReady`): repeatedly execute
the ready node that is earliest in insertion order.  This is the unique
order satisfying claim C8's conjunction of edge-respect and
insertion-order tie-breaking. -/
def specTieLoop (ids : List String) (edges : List EdgeRec) : Nat → List String → List String
  | 0, chosen => chosen
  | f + 1, chosen =>
      match specReady ids edges chosen with
      | some n => specTieLoop ids edges f (chosen ++ [n])
      | none => chosen

/-- Modelled from the spec's words: the full insertion-order tie-break
schedule claimed by C8. -/
def specTieBreakOrder (ids : List String) (edges : List EdgeRec) : List String :=
  specTieLoop ids edges ids.length []

/-- The value of the terminal `return` of `DynamicWorkflow.run`
(dynamic_workflow.py:67-71). -/
structure RunResult where
  status : String
  data : List (String × Val)
  errors : List Val

/-- The key list of the node dict `\x7bnode["id"]: node for node in
nodes\x7d`: first-occurrence order, duplicates collapsed. -/
def nodeKeys (nodes : List Node) : List String := dedupFirst (nodes.map (·.id))

/-- The value stored for key `i` in the node dict: the last node with that
id wins, as in a Python dict comprehension. -/
def lookupNodeLast (nodes : List Node) (i : String) : Option Node :=
  (nodes.filter (fun n => n.id == i)).getLast?

/-- `node.get("data", \x7b\x7d).get(k)`.  On a non-dict `data` the Python
would raise; the claims only exercise dict-shaped `data`. -/
def dataGet (d : Val) (k : String) : Option Val :=
  match d with
  | .vdict kvs => dictGet kvs k
  | _ => none

/-- The workflow state `\x7b"inputs": inputs, "results": \x7b...\x7d\x7d`
(dynamic_workflow.py:34) with the accumulated results. -/
def mkState (inputs : Val) (results : List (String × Val)) : Val :=
  .vdict [("inputs", inputs), ("results", .vdict results)]

/-- `DynamicWorkflow._execute_action_node` (dynamic_workflow.py:73-95):
read `action_name` (default `None`) and `config` (default `\x7b\x7d`) from
the node data, interpolate the config against the state, and invoke the
`execute_action` activity.  `act` is the activity oracle
`(action_name, interpolated_config, state) ↦ result`. -/
def execute_action_node (act : Val → Val → Val → Val) (node : Node) (state : Val) : Val :=
  let action_name := (dataGet node.data "action_name").getD .vnone
  let config := (dataGet node.data "config").getD (.vdict [])
  act action_name (interpolate_config state config) state

/-- `DynamicWorkflow._execute_loop` (dynamic_workflow.py:107-131): resolve
`node.data.collection` (default `""`) as a dot-path into the state; a
non-list resolution yields `[]`, a list yields its items (the body is not
executed; the loop just collects the items).  A non-string `"collection"`
value would raise in Python and is modelled as the default `""`. -/
def execute_loop_node (node : Node) (state : Val) : Val :=
  let path := match dataGet node.data "collection" with
    | some (.vstr s) => s
    | _ => ""
  match get_value_from_state path state with
  | .vlist items => .vlist items
  | _ => .vlist []

/-- One iteration body of the `for node_id in execution_order` loop of
`DynamicWorkflow.run` (dynamic_workflow.py:46-63): dispatch on
`node.get("type", "action")`.  `some v` means `state["results"][node_id] = v`;
`none` means the node type is unrecognised and the loop body does nothing.
`_evaluate_condition` (dynamic_workflow.py:97-105) always returns `True`. -/
def nodeStep (act : Val → Val → Val → Val) (node : Node) (inputs : Val)
    (results : List (String × Val)) : Option Val :=
  let state := mkState inputs results
  let t := node.type?.getD "action"
  if t = "action" then some (execute_action_node act node state)
  else if t = "condition" then some (.vbool true)
  else if t = "loop" then some (execute_loop_node node state)
  else none

/-- The `for node_id in execution_order` loop of `DynamicWorkflow.run`,
threading the results dict. -/
def runFold (act : Val → Val → Val → Val) (nodes : List Node) (inputs : Val) :
    List String → List (String × Val) → List (String × Val)
  | [], results => results
  | nid :: rest, results =>
      match lookupNodeLast nodes nid with
      | none => runFold act nodes inputs rest results
      | some node =>
          match nodeStep act node inputs results with
          | some v => runFold act nodes inputs rest (dictSet results nid v)
          | none => runFold act nodes inputs rest results

/-- `DynamicWorkflow.run` (dynamic_workflow.py:19-71): build the node
dict, compute the execution order, execute every node in order, and
unconditionally return `\x7bstatus: "COMPLETED", data: state["results"],
errors: []\x7d`. -/
def DynamicWorkflow_run (act : Val → Val → Val → Val) (nodes : List Node)
    (edges : List EdgeRec) (inputs : Val) : RunResult :=
  let ids := nodeKeys nodes
  let order := get_execution_order ids edges
  let results := runFold act nodes inputs order []
  { status := "COMPLETED", data := results, errors := [] }

/-- An `execution_logs` row (models/execution.py:35-54). -/
structure ExecutionLogRow where
  step_name : String
  action_name : String
  status : String
  inputs : Option Val
  outputs : Option Val
  error : Option String
  created_at : Nat

/-- The `for node_id in execution_order` loop again, additionally
threading the list of `ExecutionLog` rows appended during the run.  No
statement in `DynamicWorkflow.run`, `activities.py`, or
`temporal_service.py` constructs an `ExecutionLog` (the only references to
the model are reads in `api/endpoints/executions.py`), so every branch
passes the accumulator through unchanged. -/
def runFoldLogs (act : Val → Val → Val → Val) (nodes : List Node) (inputs : Val) :
    List String → List (String × Val) × List ExecutionLogRow →
    List (String × Val) × List ExecutionLogRow
  | [], st => st
  | nid :: rest, (results, logs) =>
      match lookupNodeLast nodes nid with
      | none => runFoldLogs act nodes inputs rest (results, logs)
      | some node =>
          match nodeStep act node inputs results with
          | some v => runFoldLogs act nodes inputs rest (dictSet results nid v, logs)
          | none => runFoldLogs act nodes inputs rest (results, logs)

/-- The `ExecutionLog` rows appended while `DynamicWorkflow.run` executes
a workflow. -/
def DynamicWorkflow_run_logs (act : Val → Val → Val → Val) (nodes : List Node)
    (edges : List EdgeRec) (inputs : Val) : List ExecutionLogRow :=
  (runFoldLogs act nodes inputs (get_execution_order (nodeKeys nodes) edges) ([], [])).2

/-- Does `DynamicWorkflow.run` recognise this node's type
(`node.get("type", "action")` ∈ `\x7b"action", "condition", "loop"\x7d`)?
Unrecognised types fall through the `if/elif` chain with no effect. -/
def recognizedType (node : Node) : Bool :=
  let t := node.type?.getD "action"
  t == "action" || t == "condition" || t == "loop"

/-- Did this attempt outcome take the `return \x7b"status": "SUCCESS" ...\x7d`
path? -/
def isSuccessOutcome : AttemptOutcome → Bool
  | .success _ => true
  | _ => false

/-- A string with no brace characters — the side conditions under which a
single `\x7b\x7bpath\x7d\x7d` placeholder is the only regex match. -/
def braceFree (s : String) : Prop := ∀ c ∈ s.data, c ≠ '{' ∧ c ≠ '}'

/-- Number of edges into `t` whose source has not yet been popped — the
abstract value tracked by the in-degree table during Kahn's algorithm. -/
def pend (edges : List EdgeRec) (popped : List String) (t : String) : Int :=
  (((edges.filter (fun e => e.target == t && !(popped.contains e.source))).length : Nat) : Int)

/-- The invariant maintained by the `while queue` loop of Kahn's
algorithm: the in-degree table tracks the edges from not-yet-popped
sources, popped-or-queued nodes are exactly those with no pending
in-edges, nothing is duplicated, and every edge whose target has been
popped goes forward in the order. -/
structure KahnInv (ids : List String) (edges : List EdgeRec) (deg : String → Int)
    (q order : List String) : Prop where
  hdeg : ∀ t, deg t = pend edges order t
  hnd2 : (order ++ q).Nodup
  hsub : ∀ x ∈ order ++ q, x ∈ ids
  hmem : ∀ t ∈ ids, (t ∈ order ++ q ↔ pend edges order t = 0)
  hedge_order : ∀ e ∈ edges, e.target ∈ order →
    e.source ∈ order ∧ order.indexOf e.source < order.indexOf e.target
  hedge_queue : ∀ e ∈ edges, e.target ∈ q → e.source ∈ order


/-- Claim C2: the spec says POST /workflows responds 400 on an illegal graph
and persists nothing.  The handler never calls the validator (the call is a
TODO at workflows.py:67), so a two-node cycle — which the validator itself
rejects — is persisted and answered 201.  This refutes the claim against the
code while the validator agrees the graph is invalid, so the defect is in the
handler, not the spec's intent. -/
theorem C2_create_workflow_persists_invalid_graph :
    (validate_workflow_graph
        [⟨"a", some "action", .vdict []⟩, ⟨"b", some "action", .vdict []⟩]
        [⟨"a", "b"⟩, ⟨"b", "a"⟩]).1 = false
    ∧ create_workflow "wf" none
        [⟨"a", some "action", .vdict []⟩, ⟨"b", some "action", .vdict []⟩]
        [⟨"a", "b"⟩, ⟨"b", "a"⟩] "admin"
      = (201,
         some { name := "wf", description := none, version := 1,
                nodes := [⟨"a", some "action", .vdict []⟩, ⟨"b", some "action", .vdict []⟩],
                edges := [⟨"a", "b"⟩, ⟨"b", "a"⟩], created_by := "admin" }) :=
  ⟨rfl, rfl⟩

/-- Claim C3, counterexample: a single action node whose `action_name` is
`"no_such_action"` — which resolves to no catalog entry — passes
`validate_workflow_graph` with `valid = true` and no errors, refuting the
claim that the validator reports such nodes invalid. -/
theorem C3_counterexample_no_catalog_check :
    validate_workflow_graph
      [⟨"a", some "action", .vdict [("action_name", .vstr "no_such_action")]⟩] []
      = (true, []) := rfl

/-- Claim C3, amended: `validate_workflow_graph` never inspects a node's
`type` or `data` at all — replacing both by arbitrary functions of the node
leaves the validator's output unchanged, so no catalog check (indeed no check
on `data.action_name`) can be happening. -/
theorem C3_validator_ignores_node_data (nodes : List Node) (edges : List EdgeRec)
    (f : Node → Option String) (g : Node → Val) :
    validate_workflow_graph (nodes.map (fun n => ⟨n.id, f n, g n⟩)) edges
      = validate_workflow_graph nodes edges := by
  have h1 : (nodes.map (fun n => (⟨n.id, f n, g n⟩ : Node))).map (fun x => x.id)
      = nodes.map (fun x => x.id) := by
    rw [List.map_map]
    rfl
  have h2 : (nodes.map (fun n => (⟨n.id, f n, g n⟩ : Node))).length = nodes.length :=
    List.length_map _ _
  have h3 : (nodes.map (fun n => (⟨n.id, f n, g n⟩ : Node))).isEmpty = nodes.isEmpty := by
    cases nodes <;> rfl
  unfold validate_workflow_graph has_cycle
  rw [h1, h2, h3]

/-- Claim C4, counterexample: a local record in terminal status COMPLETED is
overwritten when the runtime reports the non-terminal status RUNNING —
`get_workflow_status` adopts RUNNING and keeps the stale `completed_at`,
refuting the claim that terminal local statuses are never changed. -/
theorem C4_counterexample_terminal_overwritten :
    get_workflow_status ⟨"COMPLETED", some 5⟩ (some "RUNNING") 9
      = ("RUNNING", ⟨"RUNNING", some 5⟩)
    ∧ "COMPLETED" ∈ terminalStatuses
    ∧ "RUNNING" ∉ terminalStatuses
    ∧ ("RUNNING" : String) ≠ "COMPLETED" := by
  refine ⟨rfl, by decide, by decide, by decide⟩

/-- Claim C4, amended: `get_workflow_status` always adopts the authoritative
runtime status whenever one is reported, terminal or not; `completed_at` is
freshly set only when the adopted status differs from the stored one and is
terminal, is otherwise carried over (hence never cleared once set), and the
record is untouched when the runtime reports nothing. -/
theorem C4_reconcile_adopts_authoritative (rec : ExecRecord) (ts : String) (now : Nat) :
    (get_workflow_status rec (some ts) now).1 = ts
    ∧ (get_workflow_status rec (some ts) now).2.status = ts
    ∧ (get_workflow_status rec (some ts) now).2.completed_at
        = (if ts ≠ rec.status ∧ ts ∈ terminalStatuses then some now else rec.completed_at)
    ∧ (rec.completed_at.isSome →
        ((get_workflow_status rec (some ts) now).2.completed_at).isSome)
    ∧ get_workflow_status rec none now = (rec.status, rec) := by
  unfold get_workflow_status
  by_cases h : ts = rec.status
  · subst h
    simp
  · by_cases h2 : ts ∈ terminalStatuses
    · simp [h, h2]
    · simp [h, h2]

/-- Claim C4 witness: the amended theorem evaluated at a RUNNING record whose
runtime status is COMPLETED. -/
theorem C4_reconcile_witness :
    (get_workflow_status ⟨"RUNNING", some 3⟩ (some "COMPLETED") 7).2.status = "COMPLETED" :=
  (C4_reconcile_adopts_authoritative ⟨"RUNNING", some 3⟩ "COMPLETED" 7).2.1

/-- Claim C7: `cancel_execution` succeeds only on a RUNNING execution; any
other status yields a 400-class error naming the observed status with the
record unchanged; on a RUNNING execution a failure to signal the runtime
yields a 500 with the record untouched, and a successful signal sets status
CANCELLED with `completed_at` stamped.  Confirmed as stated. -/
theorem C7_cancel_execution_correct (rec : ExecRecord) (cancelErr : Option String) (now : Nat) :
    (rec.status ≠ "RUNNING" →
      cancel_execution (some rec) cancelErr now
        = ((400, "Cannot cancel execution with status " ++ rec.status), some rec))
    ∧ (rec.status = "RUNNING" →
        (∀ msg, cancelErr = some msg →
          cancel_execution (some rec) cancelErr now
            = ((500, "Failed to cancel execution: " ++ msg), some rec))
        ∧ (cancelErr = none →
          cancel_execution (some rec) cancelErr now
            = ((200, "CANCELLED"), some ⟨"CANCELLED", some now⟩))) := by
  unfold cancel_execution cancel_workflow
  by_cases h : rec.status = "RUNNING"
  · refine ⟨fun hc => absurd h hc, fun _ => ⟨?_, ?_⟩⟩
    · intro msg hmsg
      subst hmsg
      simp [h]
    · intro hnone
      subst hnone
      simp [h]
  · refine ⟨fun _ => ?_, fun hr => absurd hr h⟩
    simp [h]

/-- Claim C7 witness: the theorem evaluated on a COMPLETED record (rejected
with 400) and a RUNNING record whose cancel signal succeeds. -/
theorem C7_cancel_execution_witness :
    cancel_execution (some ⟨"COMPLETED", some 2⟩) none 5
      = ((400, "Cannot cancel execution with status COMPLETED"), some ⟨"COMPLETED", some 2⟩)
    ∧ cancel_execution (some ⟨"RUNNING", none⟩) none 5
      = ((200, "CANCELLED"), some ⟨"CANCELLED", some 5⟩) :=
  ⟨(C7_cancel_execution_correct ⟨"COMPLETED", some 2⟩ none 5).1 (by decide),
   ((C7_cancel_execution_correct ⟨"RUNNING", none⟩ none 5).2 rfl).2 rfl⟩

/-- Invariant of the `execute_action` attempt loop, proved by downward
induction on the remaining fuel: attempts advance one at a time up to
`maxRetries`; a later attempt exists exactly when the earlier one was a
retryable failure with attempts remaining; and when the last attempt was
not a success, the returned value is the FAILED record carrying
`str(last_error)`. -/
theorem execLoop_spec (oracle : Nat → AttemptOutcome) (name : String) :
    ∀ fuel attempt, fuel + attempt = maxRetries → 1 ≤ fuel →
    attempt < (execLoop oracle name fuel attempt).2
    ∧ (execLoop oracle name fuel attempt).2 ≤ maxRetries
    ∧ (∀ k, attempt ≤ k → k + 1 < (execLoop oracle name fuel attempt).2 →
        (retryableOutcome (oracle k) = true ∧ k + 1 < maxRetries))
    ∧ (∀ k, attempt ≤ k → k < (execLoop oracle name fuel attempt).2 →
        retryableOutcome (oracle k) = true → k + 1 < maxRetries →
        k + 1 < (execLoop oracle name fuel attempt).2)
    ∧ (isSuccessOutcome (oracle ((execLoop oracle name fuel attempt).2 - 1)) = false →
        (execLoop oracle name fuel attempt).1 =
          { status := "FAILED", data := none,
            error := outcomeMsg (oracle ((execLoop oracle name fuel attempt).2 - 1)),
            action_name := name }) := by
  intro fuel
  induction fuel with
  | zero => intro attempt hsum h1; omega
  | succ f ih =>
    intro attempt hsum h1
    have hm : maxRetries = 3 := rfl
    rcases ho : oracle attempt with v | ⟨c, m⟩ | m
    · have he : execLoop oracle name (f + 1) attempt
          = ({ status := "SUCCESS", data := some v, error := none, action_name := name },
             attempt + 1) := by
        simp [execLoop, ho]
      rw [he]
      refine ⟨by omega, by simp only [maxRetries]; omega, ?_, ?_, ?_⟩
      · intro k hk hk2
        simp only at hk2
        omega
      · intro k hk hklt hr hk3
        simp only at hklt
        have hkeq : k = attempt := by omega
        subst hkeq
        rw [ho] at hr
        simp [retryableOutcome] at hr
      · intro hf
        simp only [Nat.add_sub_cancel] at hf
        rw [ho] at hf
        simp [isSuccessOutcome] at hf
    · by_cases hcond : 500 ≤ c ∧ attempt < maxRetries - 1
      · have he : execLoop oracle name (f + 1) attempt = execLoop oracle name f (attempt + 1) := by
          simp [execLoop, ho, hcond]
        have hc2 := hcond.2
        simp only [maxRetries] at hc2
        obtain ⟨i1, i2, i3, i4, i5⟩ := ih (attempt + 1) (by omega) (by omega)
        rw [he]
        refine ⟨by omega, i2, ?_, ?_, i5⟩
        · intro k hk hk2
          rcases Nat.eq_or_lt_of_le hk with hkeq | hklt
          · subst hkeq
            refine ⟨?_, by simp only [maxRetries]; omega⟩
            rw [ho]
            simp [retryableOutcome, hcond.1]
          · exact i3 k (by omega) hk2
        · intro k hk hklt hr hk3
          rcases Nat.eq_or_lt_of_le hk with hkeq | hklt2
          · subst hkeq
            exact i1
          · exact i4 k (by omega) hklt hr hk3
      · have he : execLoop oracle name (f + 1) attempt
            = ({ status := "FAILED", data := none, error := some m, action_name := name },
               attempt + 1) := by
          simp [execLoop, ho, hcond]
        rw [he]
        refine ⟨by omega, by simp only [maxRetries]; omega, ?_, ?_, ?_⟩
        · intro k hk hk2
          simp only at hk2
          omega
        · intro k hk hklt hr hk3
          simp only at hklt
          have hkeq : k = attempt := by omega
          subst hkeq
          rw [ho] at hr
          simp only [retryableOutcome, decide_eq_true_eq] at hr
          simp only [maxRetries] at hk3 hcond
          exact absurd ⟨hr, by omega⟩ hcond
        · intro _
          simp only [Nat.add_sub_cancel]
          rw [ho]
          rfl
    · by_cases hcond : attempt < maxRetries - 1
      · have he : execLoop oracle name (f + 1) attempt = execLoop oracle name f (attempt + 1) := by
          simp [execLoop, ho, hcond]
        have hc2 := hcond
        simp only [maxRetries] at hc2
        obtain ⟨i1, i2, i3, i4, i5⟩ := ih (attempt + 1) (by omega) (by omega)
        rw [he]
        refine ⟨by omega, i2, ?_, ?_, i5⟩
        · intro k hk hk2
          rcases Nat.eq_or_lt_of_le hk with hkeq | hklt
          · subst hkeq
            refine ⟨?_, by simp only [maxRetries]; omega⟩
            rw [ho]
            rfl
          · exact i3 k (by omega) hk2
        · intro k hk hklt hr hk3
          rcases Nat.eq_or_lt_of_le hk with hkeq | hklt2
          · subst hkeq
            exact i1
          · exact i4 k (by omega) hklt hr hk3
      · have he : execLoop oracle name (f + 1) attempt
            = ({ status := "FAILED", data := none, error := some m, action_name := name },
               attempt + 1) := by
          simp [execLoop, ho, hcond]
        rw [he]
        refine ⟨by omega, by simp only [maxRetries]; omega, ?_, ?_, ?_⟩
        · intro k hk hk2
          simp only at hk2
          omega
        · intro k hk hklt hr hk3
          simp only at hklt
          have hkeq : k = attempt := by omega
          subst hkeq
          simp only [maxRetries] at hk3 hcond
          omega
        · intro _
          simp only [Nat.add_sub_cancel]
          rw [ho]
          rfl

/-- Claim C6: `execute_action` makes between 1 and 3 HTTP attempts; attempt
k+1 happens exactly when attempts remain and attempt k failed with a 5xx
status or a transport error (so a 4xx is never retried); and when the final
attempt did not succeed the activity returns the
`\x7bstatus: FAILED, error, action_name\x7d` dict as a normal value.
Confirmed as stated. -/
theorem C6_execute_action_retry_policy (name : String) (oracle : Nat → AttemptOutcome) :
    1 ≤ (execute_action name oracle).2
    ∧ (execute_action name oracle).2 ≤ 3
    ∧ (∀ k, k + 1 < (execute_action name oracle).2 ↔
        (k + 1 < 3 ∧ k < (execute_action name oracle).2 ∧ retryableOutcome (oracle k) = true))
    ∧ (isSuccessOutcome (oracle ((execute_action name oracle).2 - 1)) = false →
        (execute_action name oracle).1 =
          { status := "FAILED", data := none,
            error := outcomeMsg (oracle ((execute_action name oracle).2 - 1)),
            action_name := name }) := by
  obtain ⟨h1, h2, h3, h4, h5⟩ :=
    execLoop_spec oracle name maxRetries 0 (by simp [maxRetries]) (by simp [maxRetries])
  unfold execute_action
  simp only [maxRetries] at h2 h3 h4
  refine ⟨h1, h2, ?_, h5⟩
  intro k
  constructor
  · intro hk
    obtain ⟨hr, hk3⟩ := h3 k (Nat.zero_le k) hk
    exact ⟨hk3, by omega, hr⟩
  · rintro ⟨hk3, hklt, hr⟩
    exact h4 k (Nat.zero_le k) hklt hr hk3

/-- Claim C6 witness: the theorem evaluated on an oracle that always answers
HTTP 404 — one attempt, no retry, FAILED dict returned. -/
theorem C6_execute_action_witness :
    (execute_action "ping" (fun _ => .httpStatusError 404 "nf")).2 ≤ 3
    ∧ (execute_action "ping" (fun _ => .httpStatusError 404 "nf")).1 =
        { status := "FAILED", data := none, error := some "nf", action_name := "ping" } :=
  ⟨(C6_execute_action_retry_policy "ping" (fun _ => .httpStatusError 404 "nf")).2.1,
   (C6_execute_action_retry_policy "ping" (fun _ => .httpStatusError 404 "nf")).2.2.2 rfl⟩

-- dict lemmas
theorem dictGet_dictSet (kvs : List (String × Val)) (n k : String) (v : Val) :
    dictGet (dictSet kvs n v) k = if n = k then some v else dictGet kvs k := by
  induction kvs with
  | nil => simp [dictSet, dictGet]
  | cons hd tl ih =>
    obtain ⟨k', v'⟩ := hd
    simp only [dictSet]
    by_cases h : k' = n
    · subst h
      simp only [if_pos rfl, dictGet]
      by_cases h2 : k' = k <;> simp [h2]
    · rw [if_neg h]
      simp only [dictGet]
      by_cases h2 : k' = k
      · subst h2
        rw [if_pos rfl, if_neg (fun hh => h hh.symm), if_pos rfl]
      · rw [if_neg h2, if_neg h2, ih]

theorem nodeStep_isSome_of_recognized (act : Val → Val → Val → Val) (node : Node)
    (inputs : Val) (results : List (String × Val)) (h : recognizedType node = true) :
    (nodeStep act node inputs results).isSome := by
  unfold nodeStep
  unfold recognizedType at h
  simp only [Bool.or_eq_true, beq_iff_eq] at h
  rcases h with (h | h) | h <;> simp [h]

theorem nodeStep_eq_none_of_unrecognized (act : Val → Val → Val → Val) (node : Node)
    (inputs : Val) (results : List (String × Val)) (h : recognizedType node = false) :
    nodeStep act node inputs results = none := by
  unfold nodeStep
  unfold recognizedType at h
  simp only [Bool.or_eq_false_iff, beq_eq_false_iff_ne, ne_eq] at h
  obtain ⟨⟨h1, h2⟩, h3⟩ := h
  simp [h1, h2, h3]

theorem runFold_cons_none (act : Val → Val → Val → Val) (nodes : List Node) (inputs : Val)
    (nid : String) (rest : List String) (results : List (String × Val))
    (h : lookupNodeLast nodes nid = none) :
    runFold act nodes inputs (nid :: rest) results = runFold act nodes inputs rest results := by
  simp only [runFold, h]

theorem runFold_cons_skip (act : Val → Val → Val → Val) (nodes : List Node) (inputs : Val)
    (nid : String) (rest : List String) (results : List (String × Val)) (node : Node)
    (h : lookupNodeLast nodes nid = some node)
    (h2 : nodeStep act node inputs results = none) :
    runFold act nodes inputs (nid :: rest) results = runFold act nodes inputs rest results := by
  simp only [runFold, h, h2]

theorem runFold_cons_write (act : Val → Val → Val → Val) (nodes : List Node) (inputs : Val)
    (nid : String) (rest : List String) (results : List (String × Val)) (node : Node) (v : Val)
    (h : lookupNodeLast nodes nid = some node)
    (h2 : nodeStep act node inputs results = some v) :
    runFold act nodes inputs (nid :: rest) results
      = runFold act nodes inputs rest (dictSet results nid v) := by
  simp only [runFold, h, h2]

theorem runFold_present_mono (act : Val → Val → Val → Val) (nodes : List Node) (inputs : Val)
    (order : List String) (results : List (String × Val)) (k : String)
    (h : (dictGet results k).isSome) :
    (dictGet (runFold act nodes inputs order results) k).isSome := by
  induction order generalizing results with
  | nil => simpa [runFold] using h
  | cons nid rest ih =>
    rcases hl : lookupNodeLast nodes nid with _ | node
    · rw [runFold_cons_none act nodes inputs nid rest results hl]
      exact ih results h
    · rcases hs : nodeStep act node inputs results with _ | v
      · rw [runFold_cons_skip act nodes inputs nid rest results node hl hs]
        exact ih results h
      · rw [runFold_cons_write act nodes inputs nid rest results node v hl hs]
        apply ih
        rw [dictGet_dictSet]
        by_cases hnk : nid = k <;> simp [hnk, h]

theorem runFold_writes (act : Val → Val → Val → Val) (nodes : List Node) (inputs : Val)
    (order : List String) (results : List (String × Val)) (k : String) (node : Node)
    (hmem : k ∈ order) (hlook : lookupNodeLast nodes k = some node)
    (hrec : recognizedType node = true) :
    (dictGet (runFold act nodes inputs order results) k).isSome := by
  induction order generalizing results with
  | nil => cases hmem
  | cons nid rest ih =>
    by_cases hk : nid = k
    · subst hk
      have hs := nodeStep_isSome_of_recognized act node inputs results hrec
      rcases hstep : nodeStep act node inputs results with _ | v
      · rw [hstep] at hs
        cases hs
      · rw [runFold_cons_write act nodes inputs nid rest results node v hlook hstep]
        apply runFold_present_mono
        rw [dictGet_dictSet]
        simp
    · have hmem' : k ∈ rest := by
        rcases List.mem_cons.mp hmem with hcontra | hok
        · exact absurd hcontra.symm hk
        · exact hok
      rcases hl : lookupNodeLast nodes nid with _ | node'
      · rw [runFold_cons_none act nodes inputs nid rest results hl]
        exact ih results hmem'
      · rcases hs : nodeStep act node' inputs results with _ | v
        · rw [runFold_cons_skip act nodes inputs nid rest results node' hl hs]
          exact ih results hmem'
        · rw [runFold_cons_write act nodes inputs nid rest results node' v hl hs]
          exact ih (dictSet results nid v) hmem'

theorem runFold_never_written (act : Val → Val → Val → Val) (nodes : List Node) (inputs : Val)
    (order : List String) (results : List (String × Val)) (k : String)
    (h : dictGet results k = none)
    (hk : ∀ node, lookupNodeLast nodes k = some node → recognizedType node = false) :
    dictGet (runFold act nodes inputs order results) k = none := by
  induction order generalizing results with
  | nil => simpa [runFold] using h
  | cons nid rest ih =>
    by_cases hnid : nid = k
    · subst hnid
      rcases hl : lookupNodeLast nodes nid with _ | node
      · rw [runFold_cons_none act nodes inputs nid rest results hl]
        exact ih results h
      · rw [runFold_cons_skip act nodes inputs nid rest results node hl
          (nodeStep_eq_none_of_unrecognized act node inputs results (hk node hl))]
        exact ih results h
    · rcases hl : lookupNodeLast nodes nid with _ | node
      · rw [runFold_cons_none act nodes inputs nid rest results hl]
        exact ih results h
      · rcases hs : nodeStep act node inputs results with _ | v
        · rw [runFold_cons_skip act nodes inputs nid rest results node hl hs]
          exact ih results h
        · rw [runFold_cons_write act nodes inputs nid rest results node v hl hs]
          apply ih
          rw [dictGet_dictSet, if_neg hnid]
          exact h

theorem mem_get_execution_order (ids : List String) (edges : List EdgeRec) (x : String)
    (h : x ∈ ids) : x ∈ get_execution_order ids edges := by
  unfold get_execution_order
  by_cases hc : (kahnLoop (adjacencyK ids edges)
      (kahnMeasure ids (initIndeg ids edges)
        (ids.filter (fun n => initIndeg ids edges n == 0)))
      (initIndeg ids edges) (ids.filter (fun n => initIndeg ids edges n == 0)) []).contains x
  · refine List.mem_append.mpr (Or.inl ?_)
    simpa using hc
  · refine List.mem_append.mpr (Or.inr ?_)
    refine List.mem_filter.mpr ⟨h, ?_⟩
    simpa using hc

theorem lookupNodeLast_of_nodup (nodes : List Node) (node : Node)
    (hnd : (nodes.map (fun n => n.id)).Nodup) (hmem : node ∈ nodes) :
    lookupNodeLast nodes node.id = some node := by
  induction nodes with
  | nil => cases hmem
  | cons hd tl ih =>
    simp only [List.map_cons, List.nodup_cons] at hnd
    obtain ⟨hnotin, hnd'⟩ := hnd
    rcases List.mem_cons.mp hmem with rfl | hmem'
    · have hfilter : tl.filter (fun n => n.id == node.id) = [] := by
        rw [List.filter_eq_nil]
        intro a ha
        simp only [beq_iff_eq]
        intro hcontra
        exact hnotin (hcontra ▸ List.mem_map_of_mem (fun n => n.id) ha)
      unfold lookupNodeLast
      simp [List.filter_cons, hfilter]
    · have hne : hd.id ≠ node.id := by
        intro hcontra
        exact hnotin (hcontra ▸ List.mem_map_of_mem (fun n => n.id) hmem')
      unfold lookupNodeLast
      simp only [List.filter_cons]
      rw [if_neg (by simpa using hne)]
      exact ih hnd' hmem'

theorem mem_dedupFirst (l : List String) (x : String) : x ∈ dedupFirst l ↔ x ∈ l := by
  induction l with
  | nil => simp [dedupFirst]
  | cons a l' ih =>
    simp only [dedupFirst, List.mem_cons, List.mem_filter]
    constructor
    · rintro (rfl | ⟨hx, _⟩)
      · exact Or.inl rfl
      · exact Or.inr (ih.mp hx)
    · rintro (rfl | hx)
      · exact Or.inl rfl
      · by_cases hxa : x = a
        · exact Or.inl hxa
        · exact Or.inr ⟨ih.mpr hx, by simpa using hxa⟩

/-- Claim C1, counterexample: a one-node workflow whose action activity
reports status FAILED still ends with
`\x7bstatus: COMPLETED, data: state.results, errors: []\x7d` — the
surrounding run result is never marked FAILED and carries no error naming the
failed node, refuting the claim's close-marking clause. -/
theorem C1_counterexample_failed_node_still_completed :
    DynamicWorkflow_run
        (fun _ _ _ => .vdict [("status", .vstr "FAILED"), ("error", .vstr "boom"),
                              ("action_name", .vstr "ping")])
        [⟨"a", some "action", .vdict [("action_name", .vstr "ping")]⟩] [] (.vdict [])
      = { status := "COMPLETED",
          data := [("a", .vdict [("status", .vstr "FAILED"), ("error", .vstr "boom"),
                                 ("action_name", .vstr "ping")])],
          errors := [] }
    ∧ dataGet (.vdict [("status", .vstr "FAILED"), ("error", .vstr "boom"),
                       ("action_name", .vstr "ping")]) "status" = some (.vstr "FAILED") :=
  ⟨rfl, rfl⟩

/-- Claim C1, amended: `DynamicWorkflow.run` unconditionally returns status
COMPLETED with an empty error list, whatever the per-node results; the
continuation half of the claim does hold — every node of a recognised type
gets an entry in `state.results`, failed or not, so execution continues past
failures. -/
theorem C1_run_always_completed (act : Val → Val → Val → Val) (nodes : List Node)
    (edges : List EdgeRec) (inputs : Val) (hnd : (nodes.map (fun n => n.id)).Nodup) :
    (DynamicWorkflow_run act nodes edges inputs).status = "COMPLETED"
    ∧ (DynamicWorkflow_run act nodes edges inputs).errors = []
    ∧ ∀ node ∈ nodes, recognizedType node = true →
        (dictGet (DynamicWorkflow_run act nodes edges inputs).data node.id).isSome := by
  refine ⟨rfl, rfl, ?_⟩
  intro node hmem hrec
  show (dictGet (runFold act nodes inputs
      (get_execution_order (nodeKeys nodes) edges) []) node.id).isSome
  have hid : node.id ∈ nodeKeys nodes := by
    unfold nodeKeys
    exact (mem_dedupFirst (nodes.map (fun n => n.id)) node.id).mpr
      (List.mem_map_of_mem (fun n => n.id) hmem)
  exact runFold_writes act nodes inputs _ [] node.id node
    (mem_get_execution_order (nodeKeys nodes) edges node.id hid)
    (lookupNodeLast_of_nodup nodes node hnd hmem) hrec

/-- Claim C1 witness: the amended theorem evaluated on a one-node workflow. -/
theorem C1_run_always_completed_witness :
    (DynamicWorkflow_run (fun _ _ _ => .vnone)
        [⟨"n1", some "condition", .vdict []⟩] [] (.vdict [])).status = "COMPLETED"
    ∧ (dictGet (DynamicWorkflow_run (fun _ _ _ => .vnone)
        [⟨"n1", some "condition", .vdict []⟩] [] (.vdict [])).data "n1").isSome := by
  have h := C1_run_always_completed (fun _ _ _ => .vnone)
    [⟨"n1", some "condition", .vdict []⟩] [] (.vdict []) (by decide)
  exact ⟨h.1, h.2.2 ⟨"n1", some "condition", .vdict []⟩ (List.mem_singleton.mpr rfl) rfl⟩

/-- Claim C10: a node with no `type` field is dispatched exactly like an
action node (`node.get("type", "action")`), and a node whose type is none of
action, condition or loop is silently skipped — `state.results` receives no
entry for it — while the run still ends with status COMPLETED.  Confirmed as
stated. -/
theorem C10_unknown_and_default_types :
    (∀ (act : Val → Val → Val → Val) (node : Node) (inputs : Val)
        (results : List (String × Val)), node.type? = none →
        nodeStep act node inputs results
          = nodeStep act { node with type? := some "action" } inputs results)
    ∧ (∀ (act : Val → Val → Val → Val) (nodes : List Node) (edges : List EdgeRec)
        (inputs : Val) (node : Node), node ∈ nodes →
        (nodes.map (fun n => n.id)).Nodup → recognizedType node = false →
        dictGet (DynamicWorkflow_run act nodes edges inputs).data node.id = none
        ∧ (DynamicWorkflow_run act nodes edges inputs).status = "COMPLETED") := by
  constructor
  · intro act node inputs results ht
    unfold nodeStep
    rw [ht]
    rfl
  · intro act nodes edges inputs node hmem hnd hunrec
    refine ⟨?_, rfl⟩
    show dictGet (runFold act nodes inputs
        (get_execution_order (nodeKeys nodes) edges) []) node.id = none
    apply runFold_never_written
    · rfl
    · intro node' hlook
      rw [lookupNodeLast_of_nodup nodes node hnd hmem] at hlook
      injection hlook with hh
      exact hh ▸ hunrec

/-- Claim C10 witness: the theorem evaluated on a typeless node and on a
one-node workflow of unknown type `"banana"`. -/
theorem C10_unknown_and_default_types_witness :
    nodeStep (fun _ _ _ => Val.vnone) ⟨"x", none, .vdict []⟩ (.vdict []) []
      = nodeStep (fun _ _ _ => Val.vnone) ⟨"x", some "action", .vdict []⟩ (.vdict []) []
    ∧ dictGet (DynamicWorkflow_run (fun _ _ _ => Val.vnone)
        [⟨"u", some "banana", .vdict []⟩] [] (.vdict [])).data "u" = none
    ∧ (DynamicWorkflow_run (fun _ _ _ => Val.vnone)
        [⟨"u", some "banana", .vdict []⟩] [] (.vdict [])).status = "COMPLETED" := by
  have h2 := C10_unknown_and_default_types.2 (fun _ _ _ => Val.vnone)
    [⟨"u", some "banana", .vdict []⟩] [] (.vdict []) ⟨"u", some "banana", .vdict []⟩
    (List.mem_singleton.mpr rfl) (by decide) rfl
  exact ⟨C10_unknown_and_default_types.1 (fun _ _ _ => Val.vnone)
    ⟨"x", none, .vdict []⟩ (.vdict []) [] rfl, h2.1, h2.2⟩

theorem runFoldLogs_logs (act : Val → Val → Val → Val) (nodes : List Node) (inputs : Val)
    (order : List String) (results : List (String × Val)) (logs : List ExecutionLogRow) :
    (runFoldLogs act nodes inputs order (results, logs)).2 = logs := by
  induction order generalizing results logs with
  | nil => rfl
  | cons nid rest ih =>
    rcases hl : lookupNodeLast nodes nid with _ | node
    · simp only [runFoldLogs, hl]
      exact ih results logs
    · rcases hs : nodeStep act node inputs results with _ | v
      · simp only [runFoldLogs, hl, hs]
        exact ih results logs
      · simp only [runFoldLogs, hl, hs]
        exact ih (dictSet results nid v) logs

/-- Claim C5, counterexample: a one-node workflow whose node finishes
successfully produces an empty list of ExecutionLog rows — not the one row
per executed node the claim requires. -/
theorem C5_counterexample_no_execution_log :
    DynamicWorkflow_run_logs (fun _ _ _ => .vdict [("status", .vstr "SUCCESS")])
        [⟨"a", some "action", .vdict [("action_name", .vstr "ping")]⟩] [] (.vdict [])
      = []
    ∧ ([⟨"a", some "action", .vdict [("action_name", .vstr "ping")]⟩] : List Node).length
        = 1 :=
  ⟨rfl, rfl⟩

/-- Claim C5, amended: `DynamicWorkflow.run` never writes an ExecutionLog
row at all — the `execution_logs` table is written nowhere in the backend, so
the append-per-node behaviour the spec describes does not exist in the
code. -/
theorem C5_run_appends_no_logs (act : Val → Val → Val → Val) (nodes : List Node)
    (edges : List EdgeRec) (inputs : Val) :
    DynamicWorkflow_run_logs act nodes edges inputs = [] := by
  unfold DynamicWorkflow_run_logs
  exact runFoldLogs_logs act nodes inputs _ [] []

theorem scanGo_nil (fuel : Nat) : scanGo fuel [] = [] := by cases fuel <;> rfl

theorem scanGo_skip (fuel : Nat) (c : Char) (cs : List Char) (hc : c ≠ '{') :
    scanGo (fuel + 1) (c :: cs) = scanGo fuel cs := by
  cases cs with
  | nil => simp [scanGo, hc]
  | cons c2 cs2 => simp [scanGo, hc]

theorem scanGo_braceFree (u : List Char) (hu : ∀ c ∈ u, c ≠ '{' ∧ c ≠ '}') :
    ∀ fuel, u.length < fuel → scanGo fuel u = [] := by
  induction u with
  | nil => intro fuel _; exact scanGo_nil fuel
  | cons c cs ih =>
    intro fuel hlen
    rcases fuel with _ | f
    · omega
    · rw [scanGo_skip f c cs (hu c (List.mem_cons_self c cs)).1]
      exact ih (fun x hx => hu x (List.mem_cons_of_mem c hx)) f (by simpa using Nat.lt_of_succ_lt_succ hlen)

theorem scanGo_head (u rest : List Char) (hu : ∀ c ∈ u, c ≠ '{' ∧ c ≠ '}') :
    ∀ fuel, (u ++ rest).length < fuel →
    scanGo fuel (u ++ rest) = scanGo (fuel - u.length) rest := by
  induction u with
  | nil => intro fuel _; simp
  | cons c cs ih =>
    intro fuel hlen
    rcases fuel with _ | f
    · simp at hlen
    · rw [List.cons_append, scanGo_skip f c (cs ++ rest) (hu c (List.mem_cons_self c cs)).1]
      rw [ih (fun x hx => hu x (List.mem_cons_of_mem c hx)) f (by simp at hlen ⊢; omega)]
      congr 1
      simp only [List.length_cons]
      omega

theorem scanGo_placeholder (p b : List Char) (hp : ∀ c ∈ p, c ≠ '{' ∧ c ≠ '}')
    (hb : ∀ c ∈ b, c ≠ '{' ∧ c ≠ '}') (hpne : p ≠ []) :
    ∀ fuel, ('{' :: '{' :: (p ++ '}' :: '}' :: b)).length < fuel →
    scanGo fuel ('{' :: '{' :: (p ++ '}' :: '}' :: b)) = [p] := by
  intro fuel hlen
  rcases fuel with _ | f
  · simp at hlen
  · have hdrop : (p ++ '}' :: '}' :: b).dropWhile (fun c => c ≠ '}') = '}' :: '}' :: b := by
      rw [List.dropWhile_append_of_pos (by intro a ha; simpa using (hp a ha).2)]
      rfl
    have htake : (p ++ '}' :: '}' :: b).takeWhile (fun c => c ≠ '}') = p := by
      rw [List.takeWhile_append_of_pos (by intro a ha; simpa using (hp a ha).2)]
      simp
    simp only [scanGo, hdrop, htake, hpne, if_pos, ne_eq, not_false_iff]
    rw [scanGo_braceFree b hb f (by simp at hlen; omega)]

theorem startsWithChars_append_self (pat tail : List Char) :
    startsWithChars (pat ++ tail) pat = true := by
  induction pat with
  | nil => cases tail <;> rfl
  | cons p ps ih => simp [startsWithChars, ih]

theorem replaceGo_skip (pat rep : List Char) (fuel : Nat) (c : Char) (cs : List Char)
    (h : startsWithChars (c :: cs) pat = false) :
    replaceGo pat rep (fuel + 1) (c :: cs) = c :: replaceGo pat rep fuel cs := by
  simp [replaceGo, h]

theorem replaceGo_braceFree (pat rep : List Char) (p0 : Char) (pat' : List Char)
    (hpat : pat = p0 :: pat') (b : List Char) (hb : ∀ c ∈ b, c ≠ p0) :
    ∀ fuel, b.length < fuel → replaceGo pat rep fuel b = b := by
  induction b with
  | nil => intro fuel _; cases fuel <;> rfl
  | cons c cs ih =>
    intro fuel hlen
    rcases fuel with _ | f
    · omega
    · have hstart : startsWithChars (c :: cs) pat = false := by
        rw [hpat]
        simp [startsWithChars, hb c (List.mem_cons_self c cs)]
      rw [replaceGo_skip pat rep f c cs hstart]
      rw [ih (fun x hx => hb x (List.mem_cons_of_mem c hx)) f (by simp at hlen; omega)]

theorem replaceGo_head (pat rep : List Char) (p0 : Char) (pat' : List Char)
    (hpat : pat = p0 :: pat') (u rest : List Char) (hu : ∀ c ∈ u, c ≠ p0) :
    ∀ fuel, (u ++ rest).length < fuel →
    replaceGo pat rep fuel (u ++ rest) = u ++ replaceGo pat rep (fuel - u.length) rest := by
  induction u with
  | nil => intro fuel _; simp
  | cons c cs ih =>
    intro fuel hlen
    rcases fuel with _ | f
    · simp at hlen
    · have hstart : startsWithChars (c :: (cs ++ rest)) pat = false := by
        rw [hpat]
        simp [startsWithChars, hu c (List.mem_cons_self c cs)]
      rw [List.cons_append, replaceGo_skip pat rep f c (cs ++ rest) hstart]
      rw [ih (fun x hx => hu x (List.mem_cons_of_mem c hx)) f
        (by simp only [List.length_cons, List.length_append] at hlen ⊢; omega)]
      have harith : f + 1 - (c :: cs).length = f - cs.length := by
        simp only [List.length_cons]
        omega
      rw [harith, List.cons_append]

theorem replaceGo_match (pat rep tail : List Char) (hpat : pat ≠ []) :
    ∀ fuel, (pat ++ tail).length < fuel →
    replaceGo pat rep fuel (pat ++ tail) = rep ++ replaceGo pat rep (fuel - 1) tail := by
  intro fuel hlen
  rcases fuel with _ | f
  · simp at hlen
  · rcases pat with _ | ⟨p0, pat'⟩
    · exact absurd rfl hpat
    · rw [List.cons_append]
      simp only [replaceGo]
      rw [if_pos ⟨by simp, by rw [← List.cons_append]; exact startsWithChars_append_self (p0 :: pat') tail⟩]
      congr 1
      rw [← List.cons_append, List.drop_left' (by simp)]
      simp

theorem walkState_vnone (ps : List String) : walkState ps .vnone = .vnone := by
  cases ps <;> rfl

theorem walkState_eq_vnone_of_unresolved (parts : List String) (state : Val)
    (h : resolvePath parts state = none) : walkState parts state = .vnone := by
  induction parts generalizing state with
  | nil => simp [resolvePath] at h
  | cons p ps ih =>
    cases state with
    | vdict kvs =>
      simp only [resolvePath] at h
      rcases hg : dictGet kvs p with _ | v
      · simp only [walkState, hg, Option.getD]
        exact walkState_vnone ps
      · rw [hg] at h
        simp only [walkState, hg, Option.getD]
        exact ih v h
    | vnone => rfl
    | vbool b => rfl
    | vint n => rfl
    | vstr s => rfl
    | vlist xs => rfl

/-- Claim C9: for a string holding one `\x7b\x7bpath\x7d\x7d` placeholder
(brace-free context and path), interpolation replaces the placeholder with the
Python `str()` form of the value the stripped dot-path reaches in the state;
in particular when the path does not resolve, the walk yields Python `None`
and the placeholder becomes the literal string "None".  Confirmed as
stated. -/
theorem C9_interpolation (a p b : String) (state : Val)
    (ha : braceFree a) (hp : braceFree p) (hb : braceFree b) (hpne : p ≠ "") :
    interpolateString (a ++ "\x7b\x7b" ++ p ++ "\x7d\x7d" ++ b) state
      = a ++ pyStr (get_value_from_state (pyStrip p) state) ++ b
    ∧ (resolvePath ((splitDots (pyStrip p).data).map String.mk) state = none →
        get_value_from_state (pyStrip p) state = .vnone
        ∧ interpolateString (a ++ "\x7b\x7b" ++ p ++ "\x7d\x7d" ++ b) state
            = a ++ "None" ++ b) := by
  have hpd : p.data ≠ [] := by
    intro hcontra
    exact hpne (String.ext hcontra)
  have hsdata : (a ++ "\x7b\x7b" ++ p ++ "\x7d\x7d" ++ b).data
      = a.data ++ ('{' :: '{' :: (p.data ++ '}' :: '}' :: b.data)) := by
    simp [String.data_append]
  have hscan : scanMatches (a ++ "\x7b\x7b" ++ p ++ "\x7d\x7d" ++ b).data = [p.data] := by
    rw [hsdata]
    unfold scanMatches
    rw [scanGo_head a.data ('{' :: '{' :: (p.data ++ '}' :: '}' :: b.data)) ha _
      (by omega)]
    rw [scanGo_placeholder p.data b.data hp hb hpd _
      (by simp only [List.length_append, List.length_cons]; omega)]
  have hv : get_value_from_state (pyStrip (String.mk p.data)) state
      = get_value_from_state (pyStrip p) state := rfl
  have hrepl : replaceAll (a.data ++ ('{' :: '{' :: (p.data ++ '}' :: '}' :: b.data)))
      ('{' :: '{' :: p.data ++ ['}', '}'])
      (pyStr (get_value_from_state (pyStrip p) state)).data
      = a.data ++ (pyStr (get_value_from_state (pyStrip p) state)).data ++ b.data := by
    unfold replaceAll
    have hassoc : ('{' :: '{' :: (p.data ++ '}' :: '}' :: b.data))
        = ('{' :: '{' :: p.data ++ ['}', '}']) ++ b.data := by
      simp
    rw [hassoc]
    rw [replaceGo_head ('{' :: '{' :: p.data ++ ['}', '}'])
      (pyStr (get_value_from_state (pyStrip p) state)).data '{' ('{' :: p.data ++ ['}', '}'])
      rfl a.data (('{' :: '{' :: p.data ++ ['}', '}']) ++ b.data)
      (fun c hc => (ha c hc).1) _ (by omega)]
    rw [replaceGo_match ('{' :: '{' :: p.data ++ ['}', '}'])
      (pyStr (get_value_from_state (pyStrip p) state)).data b.data (by simp) _
      (by simp only [List.length_append, List.length_cons] at *; omega)]
    rw [replaceGo_braceFree ('{' :: '{' :: p.data ++ ['}', '}'])
      (pyStr (get_value_from_state (pyStrip p) state)).data '{' ('{' :: p.data ++ ['}', '}'])
      rfl b.data (fun c hc => (hb c hc).1) _
      (by simp only [List.length_append, List.length_cons] at *; omega)]
    simp
  have hmain : interpolateString (a ++ "\x7b\x7b" ++ p ++ "\x7d\x7d" ++ b) state
      = a ++ pyStr (get_value_from_state (pyStrip p) state) ++ b := by
    unfold interpolateString
    rw [hscan]
    simp only [List.foldl]
    rw [hv, hsdata, hrepl]
    have : (a ++ pyStr (get_value_from_state (pyStrip p) state) ++ b).data
        = a.data ++ (pyStr (get_value_from_state (pyStrip p) state)).data ++ b.data := by
      simp [String.data_append]
    rw [← this]
  refine ⟨hmain, fun hmiss => ?_⟩
  have hnone : get_value_from_state (pyStrip p) state = .vnone := by
    unfold get_value_from_state
    exact walkState_eq_vnone_of_unresolved _ state hmiss
  refine ⟨hnone, ?_⟩
  rw [hmain, hnone]
  rfl

/-- Claim C9 witness: the theorem evaluated on a resolving placeholder
(`results.n.data.file_url`) and on a missing path that renders as "None". -/
theorem C9_interpolation_witness :
    interpolateString "url={{results.n.data.file_url}}?go" 
      (mkState (.vdict []) [("n", .vdict [("data", .vdict [("file_url", .vstr "s3://x")])])])
      = "url=s3://x?go"
    ∧ interpolateString "v={{results.missing}}!" (mkState (.vdict []) []) = "v=None!" := by
  constructor
  · have h := (C9_interpolation "url=" "results.n.data.file_url" "?go"
      (mkState (.vdict []) [("n", .vdict [("data", .vdict [("file_url", .vstr "s3://x")])])])
      (by unfold braceFree; decide) (by unfold braceFree; decide)
      (by unfold braceFree; decide) (by decide)).1
    simpa using h
  · have h := (C9_interpolation "v=" "results.missing" "!" (mkState (.vdict []) [])
      (by unfold braceFree; decide) (by unfold braceFree; decide)
      (by unfold braceFree; decide) (by decide)).2 rfl
    simpa using h.2

theorem pend_nonneg (edges : List EdgeRec) (popped : List String) (t : String) :
    0 ≤ pend edges popped t := Int.ofNat_nonneg _

theorem pend_nil_eq_initIndeg (ids : List String) (edges : List EdgeRec)
    (hval : ∀ e ∈ edges, e.source ∈ ids ∧ e.target ∈ ids) (t : String) :
    initIndeg ids edges t = pend edges [] t := by
  unfold initIndeg pend
  have hfe : edges.filter (fun e => e.target == t && ids.contains e.source && ids.contains e.target)
      = edges.filter (fun e => e.target == t && !(([] : List String).contains e.source)) := by
    apply List.filter_congr
    intro e he
    obtain ⟨h1, h2⟩ := hval e he
    simp [h1, h2]
  rw [hfe]

theorem count_adjacencyK (ids : List String) (edges : List EdgeRec) (n t : String)
    (hval : ∀ e ∈ edges, e.source ∈ ids ∧ e.target ∈ ids) :
    List.count t (adjacencyK ids edges n)
      = (edges.filter (fun e => e.source == n && e.target == t)).length := by
  unfold adjacencyK
  induction edges with
  | nil => rfl
  | cons e es ih =>
    have hv := hval e (List.mem_cons_self e es)
    have ih' := ih (fun x hx => hval x (List.mem_cons_of_mem e hx))
    by_cases hsrc : e.source = n
    · by_cases htgt : e.target = t
      · simp [List.filter_cons, hsrc, htgt, hsrc ▸ hv.1, htgt ▸ hv.2, List.count_cons]
          at ih' ⊢
        omega
      · simp [List.filter_cons, hsrc, htgt, hsrc ▸ hv.1, hv.2, List.count_cons] at ih' ⊢
        exact ih'
    · simp [List.filter_cons, hsrc, hv.1, hv.2] at ih' ⊢
      exact ih'

theorem pend_append (edges : List EdgeRec) (order : List String) (n t : String)
    (hn : n ∉ order) :
    pend edges (order ++ [n]) t
      = pend edges order t
        - ((edges.filter (fun e => e.source == n && e.target == t)).length : Int) := by
  unfold pend
  induction edges with
  | nil => rfl
  | cons e es ih =>
    simp only [List.filter_cons]
    by_cases htgt : e.target = t
    · by_cases hsrc : e.source = n
      · have h1 : (e.target == t && !((order ++ [n]).contains e.source)) = false := by
          simp [htgt, hsrc]
        have h2 : (e.target == t && !(order.contains e.source)) = true := by
          simp [htgt, hsrc]
          exact fun hc => hn (hsrc ▸ hc)
        have h3 : (e.source == n && e.target == t) = true := by simp [htgt, hsrc]
        simp only [h1, h2, h3, if_pos, if_neg, Bool.false_eq_true, not_false_iff,
          List.length_cons]
        push_cast
        rw [ih]
        push_cast
        omega
      · have h3 : (e.source == n && e.target == t) = false := by simp [hsrc]
        have hsame : ((order ++ [n]).contains e.source) = (order.contains e.source) := by
          simp [hsrc]
        have h1 : (e.target == t && !((order ++ [n]).contains e.source))
            = (e.target == t && !(order.contains e.source)) := by rw [hsame]
        rw [h1, h3]
        simp only [Bool.false_eq_true, if_neg, not_false_iff]
        by_cases hco : (e.target == t && !(order.contains e.source)) = true
        · simp only [hco, if_pos, List.length_cons]
          push_cast
          rw [ih]
          push_cast
          omega
        · simp only [Bool.not_eq_true] at hco
          simp only [hco, Bool.false_eq_true, if_neg, not_false_iff]
          exact ih
    · have h1 : (e.target == t && !((order ++ [n]).contains e.source)) = false := by
        simp [htgt]
      have h2 : (e.target == t && !(order.contains e.source)) = false := by simp [htgt]
      have h3 : (e.source == n && e.target == t) = false := by simp [htgt]
      simp only [h1, h2, h3, Bool.false_eq_true, if_neg, not_false_iff]
      exact ih

theorem pend_zero_source_popped (edges : List EdgeRec) (popped : List String) (t : String)
    (h : pend edges popped t = 0) :
    ∀ e ∈ edges, e.target = t → e.source ∈ popped := by
  intro e he htgt
  unfold pend at h
  by_contra hcontra
  have hmem : e ∈ edges.filter (fun e => e.target == t && !(popped.contains e.source)) := by
    refine List.mem_filter.mpr ⟨he, ?_⟩
    simp [htgt]
    intro hc
    exact hcontra hc
  have := List.length_pos.mpr (List.ne_nil_of_mem hmem)
  omega

theorem pend_pos_of_unpopped_edge (edges : List EdgeRec) (popped : List String)
    (e : EdgeRec) (he : e ∈ edges) (hsrc : e.source ∉ popped) :
    1 ≤ pend edges popped e.target := by
  unfold pend
  have hmem : e ∈ edges.filter (fun e' => e'.target == e.target && !(popped.contains e'.source)) := by
    refine List.mem_filter.mpr ⟨he, ?_⟩
    simp
    intro hc
    exact hsrc hc
  have := List.length_pos.mpr (List.ne_nil_of_mem hmem)
  omega

theorem processNeighbors_cons (deg : String → Int) (q : List String) (t0 : String)
    (ts : List String) :
    processNeighbors deg q (t0 :: ts)
      = processNeighbors (fun x => if x = t0 then deg x - 1 else deg x)
          (if deg t0 - 1 = 0 then q ++ [t0] else q) ts := by
  unfold processNeighbors
  simp

theorem processNeighbors_spec : ∀ (l : List String) (deg : String → Int) (q : List String),
    (∀ t, (l.count t : Int) ≤ deg t) →
    (∀ x, (processNeighbors deg q l).1 x = deg x - l.count x)
    ∧ ∃ app, (processNeighbors deg q l).2 = q ++ app ∧ app.Nodup
        ∧ (∀ t, t ∈ app ↔ (l.count t : Int) = deg t ∧ 1 ≤ deg t) := by
  intro l
  induction l with
  | nil =>
    intro deg q hcount
    refine ⟨fun x => by simp [processNeighbors], [], by simp [processNeighbors],
      List.nodup_nil, ?_⟩
    intro t
    simp only [List.not_mem_nil, false_iff, List.count_nil, Nat.cast_zero]
    rintro ⟨he, hge⟩
    omega
  | cons t0 ts ih =>
    intro deg q hcount
    rw [processNeighbors_cons]
    have hcount' : ∀ t, (ts.count t : Int) ≤ (fun x => if x = t0 then deg x - 1 else deg x) t := by
      intro t
      by_cases ht : t = t0
      · subst ht
        have hc := hcount t
        simp only [List.count_cons, beq_self_eq_true, if_pos rfl] at hc ⊢
        push_cast at hc ⊢
        omega
      · have hc := hcount t
        have hbeq : (t0 == t) = false := by
          simp only [beq_eq_false_iff_ne, ne_eq]
          exact fun hcontra => ht hcontra.symm
        simp only [List.count_cons, hbeq, if_neg ht] at hc ⊢
        simp at hc ⊢
        omega
    obtain ⟨hdegF, app, happ, hnodup, hiff⟩ :=
      ih (fun x => if x = t0 then deg x - 1 else deg x)
        (if deg t0 - 1 = 0 then q ++ [t0] else q) hcount'
    refine ⟨?_, ?_⟩
    · intro x
      rw [hdegF x]
      by_cases hx : x = t0
      · subst hx
        simp only [if_pos rfl, List.count_cons, beq_self_eq_true]
        simp
        omega
      · have hbeq : (t0 == x) = false := by
          simp only [beq_eq_false_iff_ne, ne_eq]
          exact fun hcontra => hx hcontra.symm
        simp only [if_neg hx, List.count_cons, hbeq]
        simp
    · by_cases hq : deg t0 - 1 = 0
      · refine ⟨t0 :: app, ?_, ?_, ?_⟩
        · rw [happ, if_pos hq]
          simp
        · refine List.nodup_cons.mpr ⟨?_, hnodup⟩
          intro hmem
          have hck := (hiff t0).mp hmem
          rw [if_pos rfl] at hck
          omega
        · intro t
          by_cases ht : t = t0
          · subst ht
            simp only [List.mem_cons, true_or, true_iff]
            have hc0 : (ts.count t : Int) ≤ deg t - 1 := by simpa using hcount' t
            simp only [List.count_cons, beq_self_eq_true, if_pos rfl]
            push_cast
            omega
          · have hbeq : (t0 == t) = false := by
              simp only [beq_eq_false_iff_ne, ne_eq]
              exact fun hcontra => ht hcontra.symm
            simp only [List.mem_cons, ht, false_or]
            rw [hiff t, if_neg ht]
            simp only [List.count_cons, hbeq]
            simp
      · refine ⟨app, ?_, hnodup, ?_⟩
        · rw [happ, if_neg hq]
        · intro t
          by_cases ht : t = t0
          · subst ht
            rw [hiff t, if_pos rfl]
            simp only [List.count_cons, beq_self_eq_true, if_pos rfl]
            push_cast
            constructor
            · rintro ⟨h1, h2⟩
              omega
            · rintro ⟨h1, h2⟩
              omega
          · have hbeq : (t0 == t) = false := by
              simp only [beq_eq_false_iff_ne, ne_eq]
              exact fun hcontra => ht hcontra.symm
            rw [hiff t, if_neg ht]
            simp only [List.count_cons, hbeq]
            simp

theorem sum_toNat_update (ids : List String) (deg : String → Int) (t0 : String) :
    ((ids.map (fun x => (if x = t0 then deg x - 1 else deg x).toNat)).sum
      ≤ (ids.map (fun x => (deg x).toNat)).sum)
    ∧ (t0 ∈ ids → ids.Nodup → deg t0 = 1 →
        (ids.map (fun x => (if x = t0 then deg x - 1 else deg x).toNat)).sum + 1
          ≤ (ids.map (fun x => (deg x).toNat)).sum) := by
  induction ids with
  | nil => simp
  | cons a rest ih =>
    simp only [List.map_cons, List.sum_cons]
    constructor
    · have hterm : (if a = t0 then deg a - 1 else deg a).toNat ≤ (deg a).toNat := by
        by_cases h : a = t0
        · simp only [if_pos h]
          omega
        · simp only [if_neg h]
          exact Nat.le_refl _
      have := ih.1
      omega
    · intro hmem hnd hdeg1
      simp only [List.nodup_cons] at hnd
      rcases List.mem_cons.mp hmem with rfl | hmem'
      · have hrest : rest.map (fun x => (if x = t0 then deg x - 1 else deg x).toNat)
            = rest.map (fun x => (deg x).toNat) := by
          apply List.map_congr_left
          intro x hx
          have hne : x ≠ t0 := fun hc => hnd.1 (hc ▸ hx)
          simp [hne]
        rw [hrest, if_pos rfl, hdeg1]
        simp only [Int.toNat_one]
        omega
      · have hane : a ≠ t0 := fun hc => hnd.1 (hc ▸ hmem')
        rw [if_neg hane]
        have := ih.2 hmem' hnd.2 hdeg1
        omega

theorem adjacencyK_subset (ids : List String) (edges : List EdgeRec) (n : String) :
    ∀ t ∈ adjacencyK ids edges n, t ∈ ids := by
  intro t ht
  unfold adjacencyK at ht
  obtain ⟨e, he, rfl⟩ := List.mem_map.mp ht
  have hcond := (List.mem_filter.mp he).2
  simp only [Bool.and_eq_true] at hcond
  simpa using hcond.2

theorem processNeighbors_measure (ids : List String) (hnd : ids.Nodup) :
    ∀ (l : List String) (deg : String → Int) (q : List String), (∀ t ∈ l, t ∈ ids) →
    kahnMeasure ids (processNeighbors deg q l).1 (processNeighbors deg q l).2
      ≤ kahnMeasure ids deg q := by
  intro l
  induction l with
  | nil =>
    intro deg q _
    simp [processNeighbors]
  | cons t0 ts ih =>
    intro deg q hsub
    rw [processNeighbors_cons]
    refine le_trans (ih _ _ (fun t ht => hsub t (List.mem_cons_of_mem t0 ht))) ?_
    unfold kahnMeasure
    have hbeta : (ids.map (fun x =>
          ((fun x => if x = t0 then deg x - 1 else deg x) x).toNat)).sum
        = (ids.map (fun x => (if x = t0 then deg x - 1 else deg x).toNat)).sum := rfl
    rw [hbeta]
    by_cases hq : deg t0 - 1 = 0
    · rw [if_pos hq]
      simp only [List.length_append, List.length_cons, List.length_nil]
      have h2 := (sum_toNat_update ids deg t0).2 (hsub t0 (List.mem_cons_self t0 ts)) hnd
        (by omega)
      omega
    · rw [if_neg hq]
      have h1 := (sum_toNat_update ids deg t0).1
      omega

theorem kahn_step (ids : List String) (edges : List EdgeRec) (hnd : ids.Nodup)
    (hval : ∀ e ∈ edges, e.source ∈ ids ∧ e.target ∈ ids)
    (n : String) (rest order : List String) (deg : String → Int)
    (inv : KahnInv ids edges deg (n :: rest) order) :
    KahnInv ids edges (processNeighbors deg rest (adjacencyK ids edges n)).1
      (processNeighbors deg rest (adjacencyK ids edges n)).2 (order ++ [n]) := by
  have hninq : n ∈ order ++ n :: rest := by simp
  have hnids : n ∈ ids := inv.hsub n hninq
  have hndapp := inv.hnd2
  have hdisj := (List.nodup_append.mp hndapp).2.2
  have hnorder : n ∉ order := fun hc => hdisj hc (by simp)
  have hcnt : ∀ t, (adjacencyK ids edges n).count t
      = (edges.filter (fun e => e.source == n && e.target == t)).length :=
    fun t => count_adjacencyK ids edges n t hval
  have hcount : ∀ t, (((adjacencyK ids edges n).count t : Nat) : Int) ≤ deg t := by
    intro t
    rw [hcnt t, inv.hdeg t]
    unfold pend
    have hmono : (edges.filter (fun e => e.source == n && e.target == t)).length
        ≤ (edges.filter (fun e => e.target == t && !(order.contains e.source))).length := by
      rw [← List.countP_eq_length_filter, ← List.countP_eq_length_filter]
      apply List.countP_mono_left
      intro e he hcond
      simp only [Bool.and_eq_true, beq_iff_eq] at hcond
      simp only [Bool.and_eq_true, beq_iff_eq, Bool.not_eq_true']
      refine ⟨hcond.2, ?_⟩
      rw [hcond.1]
      simpa using hnorder
    omega
  obtain ⟨hdegF, app, happ, hnodupApp, hiff⟩ :=
    processNeighbors_spec (adjacencyK ids edges n) deg rest hcount
  have hdeg' : ∀ t, (processNeighbors deg rest (adjacencyK ids edges n)).1 t
      = pend edges (order ++ [n]) t := by
    intro t
    rw [hdegF t, inv.hdeg t, pend_append edges order n t hnorder, hcnt t]
  have happ_mem : ∀ t ∈ app, t ∈ ids := by
    intro t ht
    have h1 := (hiff t).mp ht
    have hpos : 0 < (adjacencyK ids edges n).count t := by omega
    exact adjacencyK_subset ids edges n t (List.count_pos_iff.mp hpos)
  have happ_notin : ∀ t ∈ app, t ∉ order ++ n :: rest := by
    intro t ht hc
    have h1 := (hiff t).mp ht
    have h2 := (inv.hmem t (happ_mem t ht)).mp hc
    rw [inv.hdeg t] at h1
    omega
  refine ⟨hdeg', ?_, ?_, ?_, ?_, ?_⟩
  · rw [happ]
    have hform : (order ++ [n]) ++ (rest ++ app) = (order ++ n :: rest) ++ app := by simp
    rw [hform]
    exact List.Nodup.append hndapp hnodupApp (fun a ha1 ha2 => happ_notin a ha2 ha1)
  · intro x hx
    rw [happ] at hx
    have hform : (order ++ [n]) ++ (rest ++ app) = (order ++ n :: rest) ++ app := by simp
    rw [hform] at hx
    rcases List.mem_append.mp hx with hold | hnew
    · exact inv.hsub x hold
    · exact happ_mem x hnew
  · intro t htids
    rw [happ]
    have hform : (order ++ [n]) ++ (rest ++ app) = (order ++ n :: rest) ++ app := by simp
    rw [hform]
    have hpend' : pend edges (order ++ [n]) t
        = deg t - (((adjacencyK ids edges n).count t : Nat) : Int) := by
      rw [pend_append edges order n t hnorder, ← hcnt t, inv.hdeg t]
    constructor
    · intro hmem'
      rcases List.mem_append.mp hmem' with hold | hnew
      · have h0 : pend edges order t = 0 := (inv.hmem t htids).mp hold
        have hc0 := hcount t
        rw [inv.hdeg t] at hc0
        rw [hpend', inv.hdeg t]
        omega
      · have h1 := (hiff t).mp hnew
        rw [hpend']
        omega
    · intro hp0
      rw [hpend'] at hp0
      by_cases h1 : 1 ≤ deg t
      · refine List.mem_append.mpr (Or.inr ?_)
        exact (hiff t).mpr ⟨by omega, h1⟩
      · have hdnn : 0 ≤ deg t := by
          rw [inv.hdeg t]
          exact pend_nonneg edges order t
        have h0 : pend edges order t = 0 := by
          rw [← inv.hdeg t]
          omega
        exact List.mem_append.mpr (Or.inl ((inv.hmem t htids).mpr h0))
  · intro e he htgt
    rcases List.mem_append.mp htgt with hto | htn
    · obtain ⟨hsrc, hidx⟩ := inv.hedge_order e he hto
      refine ⟨List.mem_append.mpr (Or.inl hsrc), ?_⟩
      rw [List.indexOf_append_of_mem hsrc, List.indexOf_append_of_mem hto]
      exact hidx
    · have htn' : e.target = n := by simpa using htn
      have hsrc : e.source ∈ order := inv.hedge_queue e he (by
        rw [htn']
        exact List.mem_cons_self n rest)
      refine ⟨List.mem_append.mpr (Or.inl hsrc), ?_⟩
      rw [List.indexOf_append_of_mem hsrc, htn', List.indexOf_append_of_not_mem hnorder,
        List.indexOf_cons_self]
      have := List.indexOf_lt_length.mpr hsrc
      omega
  · intro e he htq
    rw [happ] at htq
    rcases List.mem_append.mp htq with htr | hta
    · exact List.mem_append.mpr (Or.inl (inv.hedge_queue e he (List.mem_cons_of_mem n htr)))
    · have h1 := (hiff e.target).mp hta
      have hp0 : pend edges (order ++ [n]) e.target = 0 := by
        rw [pend_append edges order n e.target hnorder, ← hcnt e.target, ← inv.hdeg e.target]
        omega
      exact pend_zero_source_popped edges (order ++ [n]) e.target hp0 e he rfl

theorem kahnLoop_spec (ids : List String) (edges : List EdgeRec) (hnd : ids.Nodup)
    (hval : ∀ e ∈ edges, e.source ∈ ids ∧ e.target ∈ ids) :
    ∀ (fuel : Nat) (deg : String → Int) (q order : List String),
    KahnInv ids edges deg q order → kahnMeasure ids deg q ≤ fuel →
    (kahnLoop (adjacencyK ids edges) fuel deg q order).Nodup
    ∧ (∀ x ∈ kahnLoop (adjacencyK ids edges) fuel deg q order, x ∈ ids)
    ∧ (∀ t ∈ ids, (t ∈ kahnLoop (adjacencyK ids edges) fuel deg q order ↔
        pend edges (kahnLoop (adjacencyK ids edges) fuel deg q order) t = 0))
    ∧ (∀ e ∈ edges, e.target ∈ kahnLoop (adjacencyK ids edges) fuel deg q order →
        e.source ∈ kahnLoop (adjacencyK ids edges) fuel deg q order
        ∧ (kahnLoop (adjacencyK ids edges) fuel deg q order).indexOf e.source
            < (kahnLoop (adjacencyK ids edges) fuel deg q order).indexOf e.target) := by
  intro fuel
  induction fuel with
  | zero =>
    intro deg q order inv hm
    have hq : q = [] := by
      unfold kahnMeasure at hm
      have hlen : q.length = 0 := by omega
      exact List.length_eq_zero.mp hlen
    subst hq
    have hK : kahnLoop (adjacencyK ids edges) 0 deg [] order = order := rfl
    rw [hK]
    have h2 := inv.hnd2
    have h3 := inv.hsub
    have h4 := inv.hmem
    simp only [List.append_nil] at h2 h3 h4
    exact ⟨h2, h3, h4, inv.hedge_order⟩
  | succ f ih =>
    intro deg q order inv hm
    cases q with
    | nil =>
      have hK : kahnLoop (adjacencyK ids edges) (f + 1) deg [] order = order := rfl
      rw [hK]
      have h2 := inv.hnd2
      have h3 := inv.hsub
      have h4 := inv.hmem
      simp only [List.append_nil] at h2 h3 h4
      exact ⟨h2, h3, h4, inv.hedge_order⟩
    | cons n rest =>
      have hK : kahnLoop (adjacencyK ids edges) (f + 1) deg (n :: rest) order
          = kahnLoop (adjacencyK ids edges) f
              (processNeighbors deg rest (adjacencyK ids edges n)).1
              (processNeighbors deg rest (adjacencyK ids edges n)).2 (order ++ [n]) := rfl
      rw [hK]
      apply ih _ _ _ (kahn_step ids edges hnd hval n rest order deg inv)
      have hm1 := processNeighbors_measure ids hnd (adjacencyK ids edges n) deg rest
        (adjacencyK_subset ids edges n)
      have hm2 : kahnMeasure ids deg rest + 1 = kahnMeasure ids deg (n :: rest) := by
        unfold kahnMeasure
        simp only [List.length_cons]
        omega
      omega

theorem exists_min_rank : ∀ (S : List String) (rank : String → Nat), S ≠ [] →
    ∃ t ∈ S, ∀ s ∈ S, rank t ≤ rank s := by
  intro S
  induction S with
  | nil => intro rank h; exact absurd rfl h
  | cons a S' ih =>
    intro rank _
    by_cases hS : S' = []
    · subst hS
      refine ⟨a, by simp, ?_⟩
      intro s hs
      have hsa : s = a := by simpa using hs
      rw [hsa]
    · obtain ⟨t, htmem, htmin⟩ := ih rank hS
      by_cases h : rank a ≤ rank t
      · refine ⟨a, List.mem_cons_self a S', ?_⟩
        intro s hs
        rcases List.mem_cons.mp hs with rfl | hs'
        · exact Nat.le_refl _
        · exact Nat.le_trans h (htmin s hs')
      · refine ⟨t, List.mem_cons_of_mem a htmem, ?_⟩
        intro s hs
        rcases List.mem_cons.mp hs with rfl | hs'
        · omega
        · exact htmin s hs'

/-- Claim C8, amended: on nodup node ids, edges with endpoints among the
ids, and an acyclic graph (witnessed by a rank function increasing along
every edge), `_get_execution_order` returns a permutation of the ids in which
every edge's source precedes its target.  The tie-break clause of the claim
is dropped: ties are broken FIFO by the moment a node becomes ready, not by
the insertion order of `nodes` (see the counterexample). -/
theorem C8_kahn_topological (ids : List String) (edges : List EdgeRec)
    (hnd : ids.Nodup) (hval : ∀ e ∈ edges, e.source ∈ ids ∧ e.target ∈ ids)
    (rank : String → Nat) (hrank : ∀ e ∈ edges, rank e.source < rank e.target) :
    (get_execution_order ids edges).Perm ids
    ∧ ∀ e ∈ edges, (get_execution_order ids edges).indexOf e.source
        < (get_execution_order ids edges).indexOf e.target := by
  have hinv : KahnInv ids edges (initIndeg ids edges)
      (ids.filter (fun n => initIndeg ids edges n == 0)) [] := by
    refine ⟨?_, ?_, ?_, ?_, ?_, ?_⟩
    · intro t
      exact pend_nil_eq_initIndeg ids edges hval t
    · simp only [List.nil_append]
      exact hnd.filter _
    · intro x hx
      simp only [List.nil_append] at hx
      exact (List.mem_filter.mp hx).1
    · intro t htids
      simp only [List.nil_append]
      constructor
      · intro h
        have hz := (List.mem_filter.mp h).2
        rw [← pend_nil_eq_initIndeg ids edges hval t]
        simpa using hz
      · intro h
        refine List.mem_filter.mpr ⟨htids, ?_⟩
        have hz : initIndeg ids edges t = 0 := by
          rw [pend_nil_eq_initIndeg ids edges hval t]
          exact h
        simpa using hz
    · intro e _ htgt
      simp at htgt
    · intro e he htq
      exfalso
      have h0 : pend edges [] e.target = 0 := by
        have hz := (List.mem_filter.mp htq).2
        rw [← pend_nil_eq_initIndeg ids edges hval e.target]
        simpa using hz
      have h1 := pend_pos_of_unpopped_edge edges [] e he (by simp)
      omega
  obtain ⟨hFnd, hFsub, hFmem, hFedge⟩ := kahnLoop_spec ids edges hnd hval
    (kahnMeasure ids (initIndeg ids edges) (ids.filter (fun n => initIndeg ids edges n == 0)))
    (initIndeg ids edges) (ids.filter (fun n => initIndeg ids edges n == 0)) [] hinv
    (Nat.le_refl _)
  set F := kahnLoop (adjacencyK ids edges)
    (kahnMeasure ids (initIndeg ids edges) (ids.filter (fun n => initIndeg ids edges n == 0)))
    (initIndeg ids edges) (ids.filter (fun n => initIndeg ids edges n == 0)) [] with hFdef
  have hcomplete : ∀ t ∈ ids, t ∈ F := by
    by_contra hcontra
    push_neg at hcontra
    obtain ⟨t0, ht0ids, ht0F⟩ := hcontra
    have hSne : ids.filter (fun t => !(F.contains t)) ≠ [] := by
      intro hnil
      have hmem0 : t0 ∈ ids.filter (fun t => !(F.contains t)) := by
        refine List.mem_filter.mpr ⟨ht0ids, ?_⟩
        simpa using ht0F
      rw [hnil] at hmem0
      cases hmem0
    obtain ⟨tm, htmS, htmmin⟩ := exists_min_rank _ rank hSne
    have htmids := (List.mem_filter.mp htmS).1
    have htmF : tm ∉ F := by
      have hz := (List.mem_filter.mp htmS).2
      simpa using hz
    have hpendne : pend edges F tm ≠ 0 := fun h0 => htmF ((hFmem tm htmids).mpr h0)
    have hpendpos : 0 < (edges.filter
        (fun e => e.target == tm && !(F.contains e.source))).length := by
      have hnn := pend_nonneg edges F tm
      unfold pend at hpendne hnn
      omega
    obtain ⟨e, hef⟩ := List.exists_mem_of_ne_nil _ (List.ne_nil_of_length_pos hpendpos)
    obtain ⟨he, hecond⟩ := List.mem_filter.mp hef
    simp only [Bool.and_eq_true, beq_iff_eq, Bool.not_eq_true'] at hecond
    obtain ⟨hetgt, hesrc⟩ := hecond
    have hesrcF : e.source ∉ F := by simpa using hesrc
    have hsrcS : e.source ∈ ids.filter (fun t => !(F.contains t)) := by
      refine List.mem_filter.mpr ⟨(hval e he).1, ?_⟩
      simpa using hesrcF
    have hle := htmmin e.source hsrcS
    have hlt := hrank e he
    rw [hetgt] at hlt
    omega
  have hfilter : ids.filter (fun n => !(F.contains n)) = [] := by
    rw [List.filter_eq_nil]
    intro a ha
    simpa using hcomplete a ha
  have hgeo : get_execution_order ids edges = F := by
    have hexp : get_execution_order ids edges
        = F ++ ids.filter (fun n => !(F.contains n)) := rfl
    rw [hexp, hfilter, List.append_nil]
  rw [hgeo]
  constructor
  · exact (List.perm_ext_iff_of_nodup hFnd hnd).mpr
      (fun a => ⟨fun h => hFsub a h, fun h => hcomplete a h⟩)
  · intro e he
    exact (hFedge e he (hcomplete e.target (hval e he).2)).2

/-- Claim C8 witness: the amended theorem evaluated on the chain
a → b → c. -/
theorem C8_kahn_topological_witness :
    (get_execution_order ["a", "b", "c"] [⟨"a", "b"⟩, ⟨"b", "c"⟩]).Perm ["a", "b", "c"]
    ∧ (get_execution_order ["a", "b", "c"] [⟨"a", "b"⟩, ⟨"b", "c"⟩]).indexOf "a"
        < (get_execution_order ["a", "b", "c"] [⟨"a", "b"⟩, ⟨"b", "c"⟩]).indexOf "b" := by
  have h := C8_kahn_topological ["a", "b", "c"] [⟨"a", "b"⟩, ⟨"b", "c"⟩]
    (by decide)
    (by intro e he; fin_cases he <;> simp)
    (fun s => if s = "a" then 0 else if s = "b" then 1 else 2)
    (by intro e he; fin_cases he <;> simp)
  exact ⟨h.1, h.2 ⟨"a", "b"⟩ (by simp)⟩

/-- Claim C8, counterexample to the tie-break clause: with nodes inserted in
order r, x, y and edges (r,y), (r,x), the code answers [r, y, x] — after r is
popped, y becomes ready before x because the edge (r,y) is listed first —
while insertion-order tie-breaking (the spec-side reference
`specTieBreakOrder`) answers [r, x, y].  The graph is a valid acyclic input:
nodup ids, endpoints among the ids, and a rank increasing along every
edge. -/
theorem C8_counterexample_tie_break :
    get_execution_order ["r", "x", "y"] [⟨"r", "y"⟩, ⟨"r", "x"⟩] = ["r", "y", "x"]
    ∧ specTieBreakOrder ["r", "x", "y"] [⟨"r", "y"⟩, ⟨"r", "x"⟩] = ["r", "x", "y"]
    ∧ (["r", "y", "x"] : List String) ≠ ["r", "x", "y"]
    ∧ (["r", "x", "y"] : List String).Nodup
    ∧ (∀ e ∈ ([⟨"r", "y"⟩, ⟨"r", "x"⟩] : List EdgeRec),
        e.source ∈ (["r", "x", "y"] : List String) ∧ e.target ∈ (["r", "x", "y"] : List String))
    ∧ (∀ e ∈ ([⟨"r", "y"⟩, ⟨"r", "x"⟩] : List EdgeRec),
        (fun s => if s = "r" then 0 else 1) e.source < (fun s => if s = "r" then 0 else 1) e.target) := by
  refine ⟨rfl, rfl, by decide, by decide, ?_, ?_⟩
  · intro e he
    fin_cases he <;> simp
  · intro e he
    fin_cases he <;> simp
